import Mathlib

/-!
# The append-only record store of `internal/log/store.go`

A shallow embedding of the `store` type and its operations `newStore`,
`Append`, `Read`, `ReadAt` and `Close`, followed by the properties of the
record store proved over it.

The store sits on three pieces of the Go standard library, which are embedded
here as far as the store uses them:

* `os.File`: the bytes of the file, the write cursor of the handle, whether
  the handle was opened with `O_APPEND`, whether it has been closed, and
  whether its path still names it (what `os.Stat` looks at). A write goes to
  the end of the file with `O_APPEND` and to the cursor without. A write
  through an open handle transfers all its bytes (the device does not fail); a
  write or read through a closed handle fails with `ErrClosed`.
* `bufio.Writer`: the pending bytes `buf[0:n]`, the length of `buf` and the
  sticky error `err`, with `Write`, `Flush`, `Available` and `Buffered`.
* `encoding/binary`: `BigEndian.PutUint64`, `BigEndian.Uint64` and the
  fixed-size path of `binary.Write`.

Machine integers are natural numbers reduced modulo `2 ^ 64` where the source
computes in `uint64`, and `int64(x)` is the two's complement reading of `x`.
`make([]byte, n)` panics when `n` exceeds the largest allocation the Go runtime
accepts, and the process dies with a fatal out-of-memory error when `n` exceeds
what the process can obtain; both limits are a parameter of `Read`.
The mutex is not part of the embedding: every operation is a function from the
state before the call to the result and the state after it.
-/

namespace Log

/-- One byte. -/
abbrev Byte := Fin 256

/-- The errors the operations can return. -/
inductive Error where
  | ErrClosed
  | ErrShortWrite
  | EOF
  | NegativeOffset
  | NotExist
deriving DecidableEq, Repr

/-- What a call does: it returns a value, the goroutine panics, or the process
dies with a fatal error. -/
inductive Outcome (α : Type) where
  | returns (a : α)
  | panics
  | dies
deriving DecidableEq, Repr

/-- What `make` can allocate. `maxAlloc` is the largest allocation the Go
runtime accepts (`2 ^ 48` on 64-bit Linux, below `2 ^ 63` everywhere): beyond
it `make` panics. `avail` is the largest allocation the process can obtain from
the operating system: beyond it the process dies with `fatal error: out of memory`. -/
structure Memory where
  /-- The limit of the runtime. -/
  maxAlloc : Nat
  /-- The limit of the machine. -/
  avail : Nat
deriving DecidableEq, Repr

/-- A call `make([]byte, n)` succeeds. -/
def Memory.Fits (m : Memory) (n : Nat) : Prop := n ≤ m.maxAlloc ∧ n ≤ m.avail

instance (m : Memory) (n : Nat) : Decidable (m.Fits n) := by
  unfold Memory.Fits
  infer_instance

/-! ## encoding/binary -/

/-- The constant `lenWidth`. -/
def lenWidth : Nat := 8

/-- The low byte of a number. -/
def byteOf (v : Nat) : Byte := ⟨v % 256, Nat.mod_lt _ (by decide)⟩

/-- `enc.PutUint64`: the eight bytes of `v`, most significant first. -/
def putUint64 (v : Nat) : List Byte :=
  [byteOf (v / 2 ^ 56), byteOf (v / 2 ^ 48), byteOf (v / 2 ^ 40), byteOf (v / 2 ^ 32),
   byteOf (v / 2 ^ 24), byteOf (v / 2 ^ 16), byteOf (v / 2 ^ 8), byteOf v]

/-- `enc.Uint64`: the number whose big-endian bytes are the first eight of `b`. -/
def uint64 (b : List Byte) : Nat :=
  (b.take 8).foldl (fun acc x => acc * 256 + x.val) 0

/-- `int64(x)` for a `uint64` value `x`. -/
def toInt64 (x : Nat) : Int :=
  if x % 2 ^ 64 < 2 ^ 63 then ((x % 2 ^ 64 : Nat) : Int) else ((x % 2 ^ 64 : Nat) : Int) - 2 ^ 64

/-! ## os.File -/

/-- An `*os.File`: the file and the handle on it. -/
structure File where
  /-- The bytes of the file. -/
  data : List Byte
  /-- The write cursor of the handle. -/
  offset : Nat
  /-- The handle was opened with `O_APPEND`. -/
  appendMode : Bool
  /-- The handle has been closed. -/
  closed : Bool
  /-- The path `f.Name()` still names the file. -/
  linked : Bool
deriving DecidableEq, Repr

/-- The bytes of a file after `b` is written at position `pos`: a gap between
the end of the file and `pos` reads as zeros, and an empty write changes nothing. -/
def writeAt (data : List Byte) (pos : Nat) (b : List Byte) : List Byte :=
  if b = [] then data
  else data.take pos ++ List.replicate (pos - data.length) 0 ++ b ++ data.drop (pos + b.length)

/-- `(*os.File).Write`: the number of bytes written and the error. With
`O_APPEND` the bytes go to the end of the file, otherwise to the cursor. -/
def File.Write (f : File) (b : List Byte) : (Nat × Option Error) × File :=
  if f.closed then ((0, some Error.ErrClosed), f)
  else
    let pos := if f.appendMode then f.data.length else f.offset
    ((b.length, none), { f with data := writeAt f.data pos b, offset := pos + b.length })

/-- `(*os.File).ReadAt` into a buffer of `len` bytes: the bytes read and the
error. The offset is checked first; the loop `for len(b) > 0` does not run for
an empty buffer, so a read of no bytes succeeds; a read that meets the end of
the file before `len` bytes returns what there is and `io.EOF`. -/
def File.ReadAt (f : File) (len : Nat) (off : Int) : List Byte × Option Error :=
  if off < 0 then ([], some Error.NegativeOffset)
  else if len = 0 then ([], none)
  else if f.closed then ([], some Error.ErrClosed)
  else
    let got := (f.data.drop off.toNat).take len
    if got.length = len then (got, none) else (got, some Error.EOF)

/-- `(*os.File).Close`. -/
def File.Close (f : File) : Option Error × File :=
  if f.closed then (some Error.ErrClosed, f) else (none, { f with closed := true })

/-- `os.Stat(f.Name())` followed by `fi.Size()`: the length of the file the path names. -/
def File.Stat (f : File) : Except Error Int :=
  if f.linked then Except.ok (f.data.length : Int) else Except.error Error.NotExist

/-- `os.OpenFile` on a file with the bytes `data`: a fresh handle, its cursor
at 0, opened with `O_APPEND` or without. -/
def openFile (data : List Byte) (appendFlag : Bool) : File :=
  { data := data, offset := 0, appendMode := appendFlag, closed := false, linked := true }

/-! ## bufio.Writer -/

/-- A `*bufio.Writer`; the file it writes to is passed to each call. -/
structure Writer where
  /-- The pending bytes `buf[0:n]`. -/
  buf : List Byte
  /-- The length of `buf`. -/
  size : Nat
  /-- The sticky error. -/
  err : Option Error
deriving DecidableEq, Repr

/-- The constant `defaultBufSize` of `bufio`. -/
def defaultBufSize : Nat := 4096

/-- `bufio.NewWriter`. -/
def NewWriter : Writer := { buf := [], size := defaultBufSize, err := none }

/-- `(*bufio.Writer).Available`. -/
def Writer.Available (b : Writer) : Nat := b.size - b.buf.length

/-- `(*bufio.Writer).Buffered`. -/
def Writer.Buffered (b : Writer) : Nat := b.buf.length

/-- `(*bufio.Writer).Flush`. -/
def Writer.Flush (b : Writer) (f : File) : Option Error × Writer × File :=
  match b.err with
  | some e => (some e, b, f)
  | none =>
    if b.buf.length = 0 then (none, b, f)
    else
      let r := f.Write b.buf
      let n := r.1.1
      let err := if n < b.buf.length ∧ r.1.2 = none then some Error.ErrShortWrite else r.1.2
      match err with
      | some e => (some e, { b with buf := b.buf.drop n, err := some e }, r.2)
      | none => (none, { b with buf := [] }, r.2)

/-- The loop of `(*bufio.Writer).Write`, `for len(p) > b.Available() && b.err == nil`:
the bytes of `p` not yet taken, `nn`, the writer and the file when it ends.
Each turn takes bytes from `p`, empties the buffer or sets `b.err`, so the
loop ends well within `fuel` turns (`writeLoop_exit`). -/
def Writer.writeLoop : Nat → Writer → File → List Byte → Nat → List Byte × Nat × Writer × File
  | 0, b, f, p, nn => (p, nn, b, f)
  | fuel + 1, b, f, p, nn =>
    if p.length > b.Available ∧ b.err = none then
      if b.Buffered = 0 then
        let r := f.Write p
        let n := r.1.1
        Writer.writeLoop fuel { b with err := r.1.2 } r.2 (p.drop n) (nn + n)
      else
        let n := min b.Available p.length
        let r := Writer.Flush { b with buf := b.buf ++ p.take n } f
        Writer.writeLoop fuel r.2.1 r.2.2 (p.drop n) (nn + n)
    else (p, nn, b, f)

/-- `(*bufio.Writer).Write`: the number of bytes taken and the error. -/
def Writer.Write (b : Writer) (f : File) (p : List Byte) : (Nat × Option Error) × Writer × File :=
  let r := Writer.writeLoop (p.length + 3) b f p 0
  let p1 := r.1
  let nn := r.2.1
  let b1 := r.2.2.1
  let f1 := r.2.2.2
  match b1.err with
  | some e => ((nn, some e), b1, f1)
  | none =>
    let n := min b1.Available p1.length
    ((nn + n, none), { b1 with buf := b1.buf ++ p1.take n }, f1)

/-- `binary.Write(w, enc, v)` for a `uint64` value `v`. -/
def binaryWrite (b : Writer) (f : File) (v : Nat) : Option Error × Writer × File :=
  let r := b.Write f (putUint64 (v % 2 ^ 64))
  (r.1.2, r.2)

/-! ## The store -/

/-- The type `store`; the mutex is left out. -/
structure store where
  /-- The embedded `*os.File`. -/
  file : File
  /-- The field `buf`. -/
  buf : Writer
  /-- The field `size`. -/
  size : Nat
deriving DecidableEq, Repr

/-- The function `newStore`. -/
def newStore (f : File) : Except Error store :=
  match f.Stat with
  | Except.error e => Except.error e
  | Except.ok sz => Except.ok { file := f, size := (sz % 2 ^ 64).toNat, buf := NewWriter }

/-- The method `Append`: the triple `(n, pos, err)` and the store after the call.
`w` is an `int`, so `uint64(w)` is `len(p) + lenWidth` modulo `2 ^ 64`. -/
def store.Append (s : store) (p : List Byte) : (Nat × Nat × Option Error) × store :=
  let pos := s.size
  let r1 := binaryWrite s.buf s.file p.length
  match r1.1 with
  | some e => ((0, 0, some e), { s with buf := r1.2.1, file := r1.2.2 })
  | none =>
    let r2 := r1.2.1.Write r1.2.2 p
    match r2.1.2 with
    | some e => ((0, 0, some e), { s with buf := r2.2.1, file := r2.2.2 })
    | none =>
      let w := (r2.1.1 + lenWidth) % 2 ^ 64
      ((w, pos, none), { file := r2.2.2, buf := r2.2.1, size := (s.size + w) % 2 ^ 64 })

/-- The method `Read`: the pair `(b, err)`, a nil slice being the empty list,
and the store after the call. `make([]byte, n)` runs before the second
`ReadAt`: it panics when `n` exceeds `mem.maxAlloc`, and the process dies when
`n` exceeds `mem.avail`. -/
def store.Read (mem : Memory) (s : store) (pos : Nat) :
    Outcome (List Byte × Option Error) × store :=
  let fl := s.buf.Flush s.file
  let s1 : store := { s with buf := fl.2.1, file := fl.2.2 }
  match fl.1 with
  | some e => (Outcome.returns ([], some e), s1)
  | none =>
    let r1 := s1.file.ReadAt lenWidth (toInt64 pos)
    match r1.2 with
    | some e => (Outcome.returns ([], some e), s1)
    | none =>
      let n := uint64 r1.1
      if n > mem.maxAlloc then (Outcome.panics, s1)
      else if n > mem.avail then (Outcome.dies, s1)
      else
        let r2 := s1.file.ReadAt n (toInt64 ((pos + lenWidth) % 2 ^ 64))
        match r2.2 with
        | some e => (Outcome.returns ([], some e), s1)
        | none => (Outcome.returns (r2.1, none), s1)

/-- The method `ReadAt`: the buffer `p` after the call, the pair `(n, err)`
and the store after the call. -/
def store.ReadAt (s : store) (p : List Byte) (off : Int) :
    (List Byte × Nat × Option Error) × store :=
  let fl := s.buf.Flush s.file
  let s1 : store := { s with buf := fl.2.1, file := fl.2.2 }
  match fl.1 with
  | some e => ((p, 0, some e), s1)
  | none =>
    let r := s1.file.ReadAt p.length off
    ((r.1 ++ p.drop r.1.length, r.1.length, r.2), s1)

/-- The method `Close`. -/
def store.Close (s : store) : Option Error × store :=
  let fl := s.buf.Flush s.file
  let s1 : store := { s with buf := fl.2.1, file := fl.2.2 }
  match fl.1 with
  | some e => (some e, s1)
  | none =>
    let c := s1.file.Close
    (c.1, { s1 with file := c.2 })

/-! ## States and runs -/

/-- Writes through the handle land at the end of the file: the handle was
opened with `O_APPEND`, or its cursor stands at the end. -/
def File.AtEnd (f : File) : Prop := f.appendMode = true ∨ f.offset = f.data.length

instance (f : File) : Decidable f.AtEnd := by
  unfold File.AtEnd
  infer_instance

/-- The logical byte stream of the store: the bytes in the file followed by
the bytes pending in the buffer. -/
def store.stream (s : store) : List Byte := s.file.data ++ s.buf.buf

/-- The consistent states of the store: the handle is open and its writes land
at the end of the file, and `size` is the number of bytes in the file plus the
number of bytes pending in the buffer. -/
def store.Consistent (s : store) : Prop :=
  s.file.closed = false ∧ s.file.AtEnd ∧ s.size = s.file.data.length + s.buf.buf.length

instance (s : store) : Decidable s.Consistent := by
  unfold store.Consistent
  infer_instance

/-- A call on the store. -/
inductive Op where
  | append (p : List Byte)
  | read (pos : Nat)
  | readAt (p : List Byte) (off : Int)
deriving DecidableEq, Repr

/-- The store after one call. -/
def store.step (mem : Memory) (s : store) : Op → store
  | Op.append p => (s.Append p).2
  | Op.read pos => (s.Read mem pos).2
  | Op.readAt p off => (s.ReadAt p off).2

/-- The store after a sequence of calls, one after the other. -/
def store.run (mem : Memory) : store → List Op → store
  | s, [] => s
  | s, op :: ops => (s.step mem op).run mem ops

/-- The payloads of the Appends that succeed in a sequence of calls, in order. -/
def store.appended (mem : Memory) : store → List Op → List (List Byte)
  | _, [] => []
  | s, Op.append p :: ops =>
    if (s.Append p).1.2.2 = none then p :: (s.step mem (Op.append p)).appended mem ops
    else (s.step mem (Op.append p)).appended mem ops
  | s, op :: ops => (s.step mem op).appended mem ops

/-- Appends the payloads one after the other: the offsets returned and the
store after the last call when every Append succeeds. -/
def store.appendAll : store → List (List Byte) → Option (List Nat × store)
  | s, [] => some ([], s)
  | s, p :: ps =>
    match (s.Append p).1.2.2 with
    | some _ => none
    | none =>
      match (s.Append p).2.appendAll ps with
      | none => none
      | some r => some ((s.Append p).1.2.1 :: r.1, r.2)

/-- The record of a payload: the big-endian encoding of its length in eight
bytes, then the payload. -/
def record (p : List Byte) : List Byte := putUint64 p.length ++ p

/-- The records of a sequence of payloads, one after the other. -/
def layout : List (List Byte) → List Byte
  | [] => []
  | p :: ps => record p ++ layout ps

/-- The total length of a sequence of payloads. -/
def totalLen : List (List Byte) → Nat
  | [] => 0
  | p :: ps => p.length + totalLen ps

/-- The writer can write through to the file: no sticky error, the handle
open, and writes landing at the end of the file. -/
def Ready (b : Writer) (f : File) : Prop := f.closed = false ∧ f.AtEnd ∧ b.err = none

/-- The turns the loop of `Write` still has to take, at most: none when its
condition fails, one when the buffer is empty, two otherwise. -/
def turns (b : Writer) (p : List Byte) : Nat :=
  if p.length > b.Available ∧ b.err = none then (if b.Buffered = 0 then 1 else 2) else 0

/-! ## Concrete values -/

/-- The payload `hello`. -/
def hello : List Byte := [104, 101, 108, 108, 111]

/-- The payload `world`. -/
def world : List Byte := [119, 111, 114, 108, 100]

/-- A fresh handle, opened without `O_APPEND`, on an empty file. -/
def emptyFile : File := openFile [] false

/-- The store `newStore` returns over `emptyFile`. -/
def store0 : store := { file := emptyFile, buf := NewWriter, size := 0 }

/-- A process on 64-bit Linux that can obtain 4 GiB for one allocation. -/
def linuxMem : Memory := { maxAlloc := 2 ^ 48, avail := 2 ^ 32 }

/-- A store whose handle has been closed while 4085 bytes are pending: the
length of a record fits the buffer, its payload does not. -/
def closedStore : store :=
  { file := { emptyFile with closed := true },
    buf := { buf := List.replicate 4085 0, size := defaultBufSize, err := none },
    size := 4085 }

/-- A store whose writer carries the error of an earlier failed flush. -/
def stuckStore : store :=
  { file := { emptyFile with closed := true },
    buf := { buf := hello, size := defaultBufSize, err := some Error.ErrClosed },
    size := 5 }

/-- The largest value of an `int`, an upper bound of `maxAlloc` on every platform. -/
def maxInt : Nat := 2 ^ 63 - 1

/-- The most memory there can be: every length that fits an `int` can be allocated. -/
def hugeMem : Memory := { maxAlloc := maxInt, avail := maxInt }

/-- A payload of eight bytes `0xFF`. -/
def ones : List Byte := [255, 255, 255, 255, 255, 255, 255, 255]

/-- A payload that itself reads as a record: the length 1 in eight bytes, then the byte 65. -/
def nested : List Byte := [0, 0, 0, 0, 0, 0, 0, 1, 65]

/-- The store after `hello` and `world` were appended to the empty store. -/
def store2 : store := ((store0.Append hello).2.Append world).2

/-- A fresh handle, opened with `O_APPEND`, on the file `store2` leaves when it is closed. -/
def reopened : File := openFile store2.Close.2.file.data true

/-- The store `newStore` returns over `reopened`. -/
def store3 : store := { file := reopened, buf := NewWriter, size := 26 }

/-- A fresh handle, opened without `O_APPEND`, on the file `store2` leaves when it is closed. -/
def reopenedPlain : File := openFile store2.Close.2.file.data false

/-- The store `newStore` returns over `reopenedPlain`. -/
def store3Plain : store := { file := reopenedPlain, buf := NewWriter, size := 26 }

/-! ## Encoding and the file -/

theorem putUint64_length (v : Nat) : (putUint64 v).length = 8 := rfl

/-- Decoding the eight bytes of a `uint64` value gives the value back. -/
theorem uint64_putUint64 (v : Nat) (h : v < 2 ^ 64) : uint64 (putUint64 v) = v := by
  simp only [uint64, putUint64, byteOf, List.take, List.foldl]
  norm_num
  omega

theorem uint64_append (a b : List Byte) (h : a.length = 8) : uint64 (a ++ b) = uint64 a := by
  unfold uint64
  rw [List.take_append_of_le_length (by omega)]

theorem uint64_take (D : List Byte) : uint64 (D.take lenWidth) = uint64 D := by
  unfold uint64
  rw [show lenWidth = 8 from rfl, List.take_take]
  simp

theorem toInt64_of_lt (x : Nat) (h : x < 2 ^ 63) : toInt64 x = (x : Int) := by
  have h1 : x % 2 ^ 64 = x := Nat.mod_eq_of_lt (by omega)
  unfold toInt64
  rw [h1, if_pos h]

theorem toInt64_neg (x : Nat) (h1 : 2 ^ 63 ≤ x) (h2 : x < 2 ^ 64) : toInt64 x < 0 := by
  have h3 : x % 2 ^ 64 = x := Nat.mod_eq_of_lt h2
  simp only [toInt64, h3]
  rw [if_neg (by omega)]
  omega

theorem writeAt_end (data b : List Byte) : writeAt data data.length b = data ++ b := by
  unfold writeAt
  split
  · next h => simp [h]
  · simp

/-- A write through an open handle whose writes land at the end of the file
adds the bytes there and leaves the handle in the same condition. -/
theorem File.Write_open (f : File) (b : List Byte) (ho : f.closed = false) (he : f.AtEnd) :
    f.Write b = ((b.length, none),
      { f with data := f.data ++ b, offset := f.data.length + b.length }) := by
  have hpos : (if f.appendMode then f.data.length else f.offset) = f.data.length := by
    rcases he with h | h
    · simp [h]
    · split <;> simp [h]
  simp only [File.Write, ho, hpos, writeAt_end]
  simp

theorem File.Write_cases (f : File) (b : List Byte) :
    ((f.Write b).1.1 = b.length ∧ (f.Write b).1.2 = none) ∨ (∃ e, (f.Write b).1.2 = some e) := by
  unfold File.Write
  split
  · right; exact ⟨_, rfl⟩
  · left; exact ⟨rfl, rfl⟩

theorem File.Write_le (f : File) (b : List Byte) : (f.Write b).1.1 ≤ b.length := by
  unfold File.Write
  split <;> simp

/-! ## The buffered writer -/

/-- A flush of a ready writer succeeds, empties the buffer and adds the pending
bytes at the end of the file. -/
theorem Flush_ready (b : Writer) (f : File) (h : Ready b f) :
    (b.Flush f).1 = none ∧ (b.Flush f).2.1 = { b with buf := [] } ∧
    (b.Flush f).2.2.data = f.data ++ b.buf ∧ Ready (b.Flush f).2.1 (b.Flush f).2.2 ∧
    (b.Flush f).2.2.linked = f.linked := by
  obtain ⟨ho, he, hb⟩ := h
  by_cases hz : b.buf.length = 0
  · have hnil : b.buf = [] := List.length_eq_zero.mp hz
    have hfl : b.Flush f = (none, b, f) := by
      unfold Writer.Flush
      rw [hb]
      simp [hz]
    rw [hfl]
    refine ⟨rfl, ?_, ?_, ⟨ho, he, hb⟩, rfl⟩
    · cases b
      simp_all
    · simp [hnil]
  · have hfl : b.Flush f = (none, { b with buf := [] },
        { f with data := f.data ++ b.buf, offset := f.data.length + b.buf.length }) := by
      unfold Writer.Flush
      rw [hb]
      simp [hz, File.Write_open f b.buf ho he]
    rw [hfl]
    refine ⟨rfl, rfl, rfl, ⟨ho, ?_, hb⟩, rfl⟩
    right
    simp

theorem Flush_err (b : Writer) (f : File) (e : Error) (h : b.err = some e) :
    b.Flush f = (some e, b, f) := by
  unfold Writer.Flush
  rw [h]

theorem Flush_cases (b : Writer) (f : File) :
    (∃ e, (b.Flush f).2.1.err = some e) ∨ (b.Flush f).2.1.buf = [] := by
  unfold Writer.Flush
  split
  · next e he => left; exact ⟨e, he⟩
  · split
    · next hz => right; exact List.length_eq_zero.mp hz
    · simp only []
      split
      · next e _ => left; exact ⟨e, rfl⟩
      · right; rfl

/-- The loop of `Write` counts in `nn` exactly the bytes it takes from `p`. -/
theorem writeLoop_count (fuel : Nat) : ∀ (b : Writer) (f : File) (p : List Byte) (nn : Nat),
    (Writer.writeLoop fuel b f p nn).2.1 + (Writer.writeLoop fuel b f p nn).1.length
      = nn + p.length := by
  induction fuel with
  | zero => intro b f p nn; rfl
  | succ k ih =>
    intro b f p nn
    unfold Writer.writeLoop
    split
    · split
      · simp only []
        rw [ih]
        have := File.Write_le f p
        simp only [List.length_drop]
        omega
      · simp only []
        rw [ih]
        simp only [List.length_drop]
        omega
    · rfl

/-- The loop of `Write` ends because its condition fails, not for lack of fuel. -/
theorem writeLoop_exit (fuel : Nat) : ∀ (b : Writer) (f : File) (p : List Byte) (nn : Nat),
    turns b p < fuel →
    turns (Writer.writeLoop fuel b f p nn).2.2.1 (Writer.writeLoop fuel b f p nn).1 = 0 := by
  induction fuel with
  | zero => intro b f p nn h; omega
  | succ k ih =>
    intro b f p nn h
    unfold Writer.writeLoop
    by_cases hc : p.length > b.Available ∧ b.err = none
    · rw [if_pos hc]
      by_cases hz : b.Buffered = 0
      · rw [if_pos hz]
        simp only []
        apply ih
        have ht : turns b p = 1 := by simp [turns, hc, hz]
        have h0 : turns { b with err := (f.Write p).1.2 } (p.drop (f.Write p).1.1) = 0 := by
          rcases File.Write_cases f p with ⟨h1, _⟩ | ⟨e, he⟩
          · simp [turns, h1]
          · simp [turns, he]
        omega
      · rw [if_neg hz]
        simp only []
        apply ih
        have ht : turns b p = 2 := by simp [turns, hc, hz]
        have h1 : turns (Writer.Flush { b with buf := b.buf ++ p.take (min b.Available p.length) } f).2.1
            (p.drop (min b.Available p.length)) ≤ 1 := by
          rcases Flush_cases { b with buf := b.buf ++ p.take (min b.Available p.length) } f
            with ⟨e, he⟩ | hnil
          · simp [turns, he]
          · unfold turns
            split
            · simp [Writer.Buffered, hnil]
            · omega
        omega
    · rw [if_neg hc]
      simp [turns, hc]

theorem writeLoop_err (fuel : Nat) (b : Writer) (f : File) (p : List Byte) (nn : Nat) (e : Error)
    (h : b.err = some e) : Writer.writeLoop fuel b f p nn = (p, nn, b, f) := by
  cases fuel with
  | zero => rfl
  | succ k =>
    unfold Writer.writeLoop
    simp [h]

/-- The loop of `Write` on a ready writer keeps it ready and keeps the bytes of
the file, the pending bytes and the bytes still to be taken, in this order, unchanged. -/
theorem writeLoop_ready (fuel : Nat) : ∀ (b : Writer) (f : File) (p : List Byte) (nn : Nat),
    Ready b f →
    Ready (Writer.writeLoop fuel b f p nn).2.2.1 (Writer.writeLoop fuel b f p nn).2.2.2 ∧
    (Writer.writeLoop fuel b f p nn).2.2.2.data ++ (Writer.writeLoop fuel b f p nn).2.2.1.buf
      ++ (Writer.writeLoop fuel b f p nn).1 = f.data ++ b.buf ++ p ∧
    (Writer.writeLoop fuel b f p nn).2.2.1.size = b.size ∧
    (Writer.writeLoop fuel b f p nn).2.2.2.linked = f.linked := by
  induction fuel with
  | zero => intro b f p nn h; exact ⟨h, rfl, rfl, rfl⟩
  | succ k ih =>
    intro b f p nn h
    unfold Writer.writeLoop
    by_cases hc : p.length > b.Available ∧ b.err = none
    · rw [if_pos hc]
      by_cases hz : b.Buffered = 0
      · rw [if_pos hz]
        simp only []
        have hnil : b.buf = [] := List.length_eq_zero.mp hz
        rw [File.Write_open f p h.1 h.2.1]
        simp only []
        have hr : Ready { b with err := none }
            { f with data := f.data ++ p, offset := f.data.length + p.length } :=
          ⟨h.1, Or.inr (by simp), rfl⟩
        obtain ⟨i1, i2, i3, i4⟩ := ih { b with err := none }
          { f with data := f.data ++ p, offset := f.data.length + p.length }
          (p.drop p.length) (nn + p.length) hr
        refine ⟨i1, ?_, i3, i4⟩
        rw [i2]
        simp [hnil]
      · rw [if_neg hz]
        simp only []
        have hr : Ready { b with buf := b.buf ++ p.take (min b.Available p.length) } f :=
          ⟨h.1, h.2.1, h.2.2⟩
        obtain ⟨_, f2, f3, f4, f5⟩ :=
          Flush_ready { b with buf := b.buf ++ p.take (min b.Available p.length) } f hr
        obtain ⟨i1, i2, i3, i4⟩ :=
          ih (Writer.Flush { b with buf := b.buf ++ p.take (min b.Available p.length) } f).2.1
            (Writer.Flush { b with buf := b.buf ++ p.take (min b.Available p.length) } f).2.2
            (p.drop (min b.Available p.length)) (nn + min b.Available p.length) f4
        refine ⟨i1, ?_, ?_, ?_⟩
        · rw [i2, f2, f3]
          simp [List.append_assoc]
        · rw [i3, f2]
        · rw [i4, f5]
    · rw [if_neg hc]
      exact ⟨h, rfl, rfl, rfl⟩

/-- A `Write` that returns no error has taken all of `p`, in every state. -/
theorem Write_count (b : Writer) (f : File) (p : List Byte) (h : (b.Write f p).1.2 = none) :
    (b.Write f p).1.1 = p.length := by
  have hx := writeLoop_exit (p.length + 3) b f p 0 (by unfold turns; split <;> [split; skip] <;> omega)
  have hn := writeLoop_count (p.length + 3) b f p 0
  unfold Writer.Write at h ⊢
  simp only [] at h ⊢
  split at h
  · simp at h
  · next he =>
    rw [he]
    simp only []
    unfold turns at hx
    rw [he] at hx
    simp only [and_true] at hx
    split at hx
    · split at hx <;> omega
    · omega

/-- A writer with a sticky error refuses every `Write` and changes nothing. -/
theorem Write_sticky (b : Writer) (f : File) (p : List Byte) (e : Error) (h : b.err = some e) :
    b.Write f p = ((0, some e), b, f) := by
  unfold Writer.Write
  rw [writeLoop_err _ b f p 0 e h]
  simp [h]

/-- A `Write` on a ready writer succeeds and adds `p` at the end of the byte stream. -/
theorem Write_ready (b : Writer) (f : File) (p : List Byte) (h : Ready b f) :
    (b.Write f p).1 = (p.length, none) ∧ Ready (b.Write f p).2.1 (b.Write f p).2.2 ∧
    (b.Write f p).2.2.data ++ (b.Write f p).2.1.buf = f.data ++ b.buf ++ p ∧
    (b.Write f p).2.1.size = b.size ∧ (b.Write f p).2.2.linked = f.linked := by
  obtain ⟨i1, i2, i3, i4⟩ := writeLoop_ready (p.length + 3) b f p 0 h
  have hx := writeLoop_exit (p.length + 3) b f p 0 (by unfold turns; split <;> [split; skip] <;> omega)
  have hn := writeLoop_count (p.length + 3) b f p 0
  have he := i1.2.2
  have hle : (Writer.writeLoop (p.length + 3) b f p 0).1.length
      ≤ (Writer.writeLoop (p.length + 3) b f p 0).2.2.1.Available := by
    unfold turns at hx
    rw [he] at hx
    simp only [and_true] at hx
    split at hx
    · split at hx <;> omega
    · omega
  have hmin : min (Writer.writeLoop (p.length + 3) b f p 0).2.2.1.Available
      (Writer.writeLoop (p.length + 3) b f p 0).1.length
      = (Writer.writeLoop (p.length + 3) b f p 0).1.length := by omega
  unfold Writer.Write
  simp only []
  rw [he]
  simp only [hmin, List.take_length]
  refine ⟨?_, ⟨i1.1, i1.2.1, rfl⟩, ?_, i3, i4⟩
  · have : (Writer.writeLoop (p.length + 3) b f p 0).2.1
        + (Writer.writeLoop (p.length + 3) b f p 0).1.length = p.length := by omega
    rw [this]
  · rw [← List.append_assoc, i2]

/-! ## Append -/

theorem Append_eq_ok (s : store) (p : List Byte)
    (h1 : (binaryWrite s.buf s.file p.length).1 = none)
    (h2 : ((binaryWrite s.buf s.file p.length).2.1.Write
      (binaryWrite s.buf s.file p.length).2.2 p).1.2 = none) :
    s.Append p =
      (((((binaryWrite s.buf s.file p.length).2.1.Write
          (binaryWrite s.buf s.file p.length).2.2 p).1.1 + lenWidth) % 2 ^ 64, s.size, none),
       { file := ((binaryWrite s.buf s.file p.length).2.1.Write
            (binaryWrite s.buf s.file p.length).2.2 p).2.2,
         buf := ((binaryWrite s.buf s.file p.length).2.1.Write
            (binaryWrite s.buf s.file p.length).2.2 p).2.1,
         size := (s.size + (((binaryWrite s.buf s.file p.length).2.1.Write
            (binaryWrite s.buf s.file p.length).2.2 p).1.1 + lenWidth) % 2 ^ 64) % 2 ^ 64 }) := by
  unfold store.Append
  simp only [h1, h2]

theorem Append_eq_err1 (s : store) (p : List Byte) (e : Error)
    (h1 : (binaryWrite s.buf s.file p.length).1 = some e) :
    s.Append p = ((0, 0, some e),
      { s with buf := (binaryWrite s.buf s.file p.length).2.1,
               file := (binaryWrite s.buf s.file p.length).2.2 }) := by
  unfold store.Append
  simp only [h1]

theorem Append_eq_err2 (s : store) (p : List Byte) (e : Error)
    (h1 : (binaryWrite s.buf s.file p.length).1 = none)
    (h2 : ((binaryWrite s.buf s.file p.length).2.1.Write
      (binaryWrite s.buf s.file p.length).2.2 p).1.2 = some e) :
    s.Append p = ((0, 0, some e),
      { s with buf := ((binaryWrite s.buf s.file p.length).2.1.Write
                 (binaryWrite s.buf s.file p.length).2.2 p).2.1,
               file := ((binaryWrite s.buf s.file p.length).2.1.Write
                 (binaryWrite s.buf s.file p.length).2.2 p).2.2 }) := by
  unfold store.Append
  simp only [h1, h2]

theorem binaryWrite_ready (b : Writer) (f : File) (v : Nat) (h : Ready b f) :
    (binaryWrite b f v).1 = none ∧ Ready (binaryWrite b f v).2.1 (binaryWrite b f v).2.2 ∧
    (binaryWrite b f v).2.2.data ++ (binaryWrite b f v).2.1.buf
      = f.data ++ b.buf ++ putUint64 (v % 2 ^ 64) ∧
    (binaryWrite b f v).2.1.size = b.size ∧ (binaryWrite b f v).2.2.linked = f.linked := by
  obtain ⟨a1, a2, a3, a4, a5⟩ := Write_ready b f (putUint64 (v % 2 ^ 64)) h
  unfold binaryWrite
  refine ⟨?_, a2, a3, a4, a5⟩
  simp only []
  rw [a1]

/-- An `Append` on a store with a ready writer succeeds, returns `size` as the
offset and adds the length of `p` in eight bytes, then `p`, at the end of the byte stream. -/
theorem Append_ready (s : store) (p : List Byte) (h : Ready s.buf s.file) :
    (s.Append p).1 = ((p.length + lenWidth) % 2 ^ 64, s.size, none) ∧
    Ready (s.Append p).2.buf (s.Append p).2.file ∧
    (s.Append p).2.stream = s.stream ++ putUint64 (p.length % 2 ^ 64) ++ p ∧
    (s.Append p).2.size = (s.size + (p.length + lenWidth) % 2 ^ 64) % 2 ^ 64 ∧
    (s.Append p).2.buf.size = s.buf.size ∧ (s.Append p).2.file.linked = s.file.linked := by
  obtain ⟨a1, a2, a3, a4, a5⟩ := binaryWrite_ready s.buf s.file p.length h
  obtain ⟨b1, b2, b3, b4, b5⟩ :=
    Write_ready (binaryWrite s.buf s.file p.length).2.1 (binaryWrite s.buf s.file p.length).2.2 p a2
  have hb1 : ((binaryWrite s.buf s.file p.length).2.1.Write
      (binaryWrite s.buf s.file p.length).2.2 p).1.2 = none := by rw [b1]
  have hb2 : ((binaryWrite s.buf s.file p.length).2.1.Write
      (binaryWrite s.buf s.file p.length).2.2 p).1.1 = p.length := by rw [b1]
  rw [Append_eq_ok s p a1 hb1, hb2]
  refine ⟨rfl, b2, ?_, rfl, ?_, ?_⟩
  · unfold store.stream
    simp only []
    rw [b3, a3]
  · simp only []
    rw [b4, a4]
  · simp only []
    rw [b5, a5]

theorem binaryWrite_sticky (b : Writer) (f : File) (v : Nat) (e : Error) (h : b.err = some e) :
    (binaryWrite b f v).1 = some e := by
  unfold binaryWrite
  rw [Write_sticky b f _ e h]

/-- The three paths of `Append`: the write of the length fails, the write of the
payload fails, or both succeed. -/
theorem Append_cases (s : store) (p : List Byte) :
    (∃ e, (binaryWrite s.buf s.file p.length).1 = some e ∧ (s.Append p).1 = (0, 0, some e) ∧
      (s.Append p).2.size = s.size) ∨
    (∃ e, (binaryWrite s.buf s.file p.length).1 = none ∧
      ((binaryWrite s.buf s.file p.length).2.1.Write
        (binaryWrite s.buf s.file p.length).2.2 p).1.2 = some e ∧
      (s.Append p).1 = (0, 0, some e) ∧ (s.Append p).2.size = s.size) ∨
    ((binaryWrite s.buf s.file p.length).1 = none ∧
      ((binaryWrite s.buf s.file p.length).2.1.Write
        (binaryWrite s.buf s.file p.length).2.2 p).1.2 = none ∧
      (s.Append p).1 = ((p.length + lenWidth) % 2 ^ 64, s.size, none) ∧
      (s.Append p).2.size = (s.size + (p.length + lenWidth) % 2 ^ 64) % 2 ^ 64) := by
  cases h1 : (binaryWrite s.buf s.file p.length).1 with
  | some e =>
    left
    refine ⟨e, rfl, ?_, ?_⟩ <;> rw [Append_eq_err1 s p e h1]
  | none =>
    right
    cases h2 : ((binaryWrite s.buf s.file p.length).2.1.Write
        (binaryWrite s.buf s.file p.length).2.2 p).1.2 with
    | some e =>
      left
      refine ⟨e, rfl, rfl, ?_, ?_⟩ <;> rw [Append_eq_err2 s p e h1 h2]
    | none =>
      right
      refine ⟨rfl, rfl, ?_, ?_⟩ <;> rw [Append_eq_ok s p h1 h2, Write_count _ _ _ h2]

theorem Append_ok (s : store) (p : List Byte) (h : (s.Append p).1.2.2 = none) :
    (s.Append p).1 = ((p.length + lenWidth) % 2 ^ 64, s.size, none) ∧
    (s.Append p).2.size = (s.size + (p.length + lenWidth) % 2 ^ 64) % 2 ^ 64 := by
  rcases Append_cases s p with ⟨e, _, h1, _⟩ | ⟨e, _, _, h1, _⟩ | ⟨_, _, h1, h2⟩
  · rw [h1] at h; simp at h
  · rw [h1] at h; simp at h
  · exact ⟨h1, h2⟩

theorem Append_ok_err (s : store) (p : List Byte) (h : (s.Append p).1.2.2 = none) :
    s.buf.err = none := by
  cases he : s.buf.err with
  | none => rfl
  | some e =>
    exfalso
    have hw := binaryWrite_sticky s.buf s.file p.length e he
    rw [Append_eq_err1 s p e hw] at h
    simp at h

/-! ## Read and ReadAt -/

theorem File.ReadAt_neg (f : File) (len x : Nat) (h1 : 2 ^ 63 ≤ x) (h2 : x < 2 ^ 64) :
    ∃ e, f.ReadAt len (toInt64 x) = ([], some e) := by
  have hn := toInt64_neg x h1 h2
  unfold File.ReadAt
  rw [if_pos hn]
  exact ⟨_, rfl⟩

theorem File.ReadAt_in (f : File) (len x : Nat) (ho : f.closed = false) (hx : x < 2 ^ 63)
    (h : x + len ≤ f.data.length) :
    f.ReadAt len (toInt64 x) = ((f.data.drop x).take len, none) := by
  unfold File.ReadAt
  rw [toInt64_of_lt x hx, if_neg (by omega)]
  by_cases hz : len = 0
  · rw [if_pos hz, hz]
    simp
  · rw [if_neg hz]
    simp only [ho, Bool.false_eq_true, if_false, Int.toNat_ofNat]
    rw [if_pos (by simp; omega)]

theorem File.ReadAt_past (f : File) (len x : Nat) (hx : x < 2 ^ 63)
    (h : f.data.length < x + len) (hlen : 0 < len) :
    ∃ e, (f.ReadAt len (toInt64 x)).2 = some e := by
  unfold File.ReadAt
  rw [toInt64_of_lt x hx, if_neg (by omega), if_neg (by omega)]
  by_cases hc : f.closed = true
  · rw [if_pos hc]
    exact ⟨_, rfl⟩
  · rw [if_neg hc]
    simp only [Int.toNat_ofNat]
    rw [if_neg (by simp; omega)]
    exact ⟨_, rfl⟩

theorem Read_state (M : Memory) (s : store) (pos : Nat) :
    (s.Read M pos).2 = { s with buf := (s.buf.Flush s.file).2.1, file := (s.buf.Flush s.file).2.2 } := by
  unfold store.Read
  simp only []
  split
  · rfl
  · split
    · rfl
    · split
      · rfl
      · split
        · rfl
        · split <;> rfl

theorem Read_flush_err (M : Memory) (s : store) (pos : Nat) (e : Error)
    (h : (s.buf.Flush s.file).1 = some e) : (s.Read M pos).1 = Outcome.returns ([], some e) := by
  unfold store.Read
  simp only [h]

/-- Case of `Read`: fewer than eight bytes follow `pos`. -/
theorem Read_short (M : Memory) (s : store) (pos : Nat)
    (hfl : (s.buf.Flush s.file).1 = none) (hpos : pos < 2 ^ 64)
    (h : (s.buf.Flush s.file).2.2.data.length < pos + lenWidth) :
    ∃ e, (s.Read M pos).1 = Outcome.returns ([], some e) := by
  have h1 : ∃ e, ((s.buf.Flush s.file).2.2.ReadAt lenWidth (toInt64 pos)).2 = some e := by
    by_cases hp : pos < 2 ^ 63
    · exact File.ReadAt_past _ lenWidth pos hp h (by decide)
    · obtain ⟨e, he⟩ := File.ReadAt_neg (s.buf.Flush s.file).2.2 lenWidth pos (by omega) hpos
      exact ⟨e, by rw [he]⟩
  obtain ⟨e, he⟩ := h1
  refine ⟨e, ?_⟩
  unfold store.Read
  simp only [hfl, he]

/-- Case of `Read`: the decoded length exceeds `maxAlloc` and `make` panics. -/
theorem Read_huge (M : Memory) (s : store) (pos : Nat)
    (hfl : (s.buf.Flush s.file).1 = none) (ho : (s.buf.Flush s.file).2.2.closed = false)
    (hL : (s.buf.Flush s.file).2.2.data.length < 2 ^ 63)
    (h : pos + lenWidth ≤ (s.buf.Flush s.file).2.2.data.length)
    (hn : M.maxAlloc < uint64 ((s.buf.Flush s.file).2.2.data.drop pos)) :
    (s.Read M pos).1 = Outcome.panics := by
  have h8 : lenWidth = 8 := rfl
  have h1 := File.ReadAt_in (s.buf.Flush s.file).2.2 lenWidth pos ho (by omega) h
  have hu := uint64_take ((s.buf.Flush s.file).2.2.data.drop pos)
  unfold store.Read
  simp only [hfl, h1, hu]
  rw [if_pos hn]

/-- Case of `Read`: the runtime accepts the decoded length, the machine cannot
provide it, and the process dies. -/
theorem Read_dies (M : Memory) (s : store) (pos : Nat)
    (hfl : (s.buf.Flush s.file).1 = none) (ho : (s.buf.Flush s.file).2.2.closed = false)
    (hL : (s.buf.Flush s.file).2.2.data.length < 2 ^ 63)
    (h : pos + lenWidth ≤ (s.buf.Flush s.file).2.2.data.length)
    (hn : uint64 ((s.buf.Flush s.file).2.2.data.drop pos) ≤ M.maxAlloc)
    (hv : M.avail < uint64 ((s.buf.Flush s.file).2.2.data.drop pos)) :
    (s.Read M pos).1 = Outcome.dies := by
  have h8 : lenWidth = 8 := rfl
  have h1 := File.ReadAt_in (s.buf.Flush s.file).2.2 lenWidth pos ho (by omega) h
  have hu := uint64_take ((s.buf.Flush s.file).2.2.data.drop pos)
  unfold store.Read
  simp only [hfl, h1, hu]
  rw [if_neg (by omega), if_pos hv]

/-- Case of `Read`: the decoded length runs past the end of the file. -/
theorem Read_past (M : Memory) (s : store) (pos : Nat)
    (hfl : (s.buf.Flush s.file).1 = none) (ho : (s.buf.Flush s.file).2.2.closed = false)
    (hL : (s.buf.Flush s.file).2.2.data.length < 2 ^ 63)
    (h : pos + lenWidth ≤ (s.buf.Flush s.file).2.2.data.length)
    (hn : M.Fits (uint64 ((s.buf.Flush s.file).2.2.data.drop pos)))
    (hp : (s.buf.Flush s.file).2.2.data.length
      < pos + lenWidth + uint64 ((s.buf.Flush s.file).2.2.data.drop pos)) :
    ∃ e, (s.Read M pos).1 = Outcome.returns ([], some e) := by
  have h8 : lenWidth = 8 := rfl
  have h1 := File.ReadAt_in (s.buf.Flush s.file).2.2 lenWidth pos ho (by omega) h
  have hu := uint64_take ((s.buf.Flush s.file).2.2.data.drop pos)
  have hm : (pos + lenWidth) % 2 ^ 64 = pos + lenWidth := Nat.mod_eq_of_lt (by omega)
  obtain ⟨e, he⟩ := File.ReadAt_past (s.buf.Flush s.file).2.2
    (uint64 ((s.buf.Flush s.file).2.2.data.drop pos)) (pos + lenWidth) (by omega) hp (by omega)
  refine ⟨e, ?_⟩
  obtain ⟨hn1, hn2⟩ := hn
  unfold store.Read
  simp only [hfl, h1, hu, hm]
  rw [if_neg (by omega), if_neg (by omega)]
  simp only [he]

/-- Case of `Read`: the decoded length lies within the file. -/
theorem Read_in (M : Memory) (s : store) (pos : Nat)
    (hfl : (s.buf.Flush s.file).1 = none) (ho : (s.buf.Flush s.file).2.2.closed = false)
    (hL : pos + lenWidth < 2 ^ 63)
    (hn : M.Fits (uint64 ((s.buf.Flush s.file).2.2.data.drop pos)))
    (hp : pos + lenWidth + uint64 ((s.buf.Flush s.file).2.2.data.drop pos)
      ≤ (s.buf.Flush s.file).2.2.data.length) :
    (s.Read M pos).1 = Outcome.returns
      (((s.buf.Flush s.file).2.2.data.drop (pos + lenWidth)).take
        (uint64 ((s.buf.Flush s.file).2.2.data.drop pos)), none) := by
  have h8 : lenWidth = 8 := rfl
  have h1 := File.ReadAt_in (s.buf.Flush s.file).2.2 lenWidth pos ho (by omega) (by omega)
  have hu := uint64_take ((s.buf.Flush s.file).2.2.data.drop pos)
  have hm : (pos + lenWidth) % 2 ^ 64 = pos + lenWidth := Nat.mod_eq_of_lt (by omega)
  have h2 := File.ReadAt_in (s.buf.Flush s.file).2.2
    (uint64 ((s.buf.Flush s.file).2.2.data.drop pos)) (pos + lenWidth) ho (by omega) hp
  obtain ⟨hn1, hn2⟩ := hn
  unfold store.Read
  simp only [hfl, h1, hu, hm]
  rw [if_neg (by omega), if_neg (by omega)]
  simp only [h2]

theorem ReadAt_state (s : store) (p : List Byte) (off : Int) :
    (s.ReadAt p off).2
      = { s with buf := (s.buf.Flush s.file).2.1, file := (s.buf.Flush s.file).2.2 } := by
  unfold store.ReadAt
  simp only []
  split <;> rfl

/-- A `Read` at the start of a record in the flushed file returns its payload. -/
theorem Read_record_flushed (M : Memory) (t : store) (A B p : List Byte)
    (f1 : (t.buf.Flush t.file).1 = none) (f4 : (t.buf.Flush t.file).2.2.closed = false)
    (hs : (t.buf.Flush t.file).2.2.data = A ++ record p ++ B) (hp : M.Fits p.length)
    (hr : A.length + lenWidth + p.length < 2 ^ 63) :
    (t.Read M A.length).1 = Outcome.returns (p, none) := by
  have h8 : lenWidth = 8 := rfl
  have hD : (t.buf.Flush t.file).2.2.data = A ++ (putUint64 p.length ++ (p ++ B)) := by
    rw [hs]
    simp [record, List.append_assoc]
  have hdrop : (t.buf.Flush t.file).2.2.data.drop A.length = putUint64 p.length ++ (p ++ B) := by
    rw [hD, List.drop_left]
  have hu : uint64 ((t.buf.Flush t.file).2.2.data.drop A.length) = p.length := by
    rw [hdrop, uint64_append _ _ (putUint64_length _), uint64_putUint64 _ (by omega)]
  have hdrop2 : (t.buf.Flush t.file).2.2.data.drop (A.length + lenWidth) = p ++ B := by
    rw [← List.drop_drop, hdrop, h8, ← putUint64_length p.length, List.drop_left]
  have hlen : (t.buf.Flush t.file).2.2.data.length
      = A.length + (8 + (p.length + B.length)) := by
    rw [hD]
    simp [putUint64_length]
  have := Read_in M t A.length f1 f4 (by omega) (by rw [hu]; exact hp) (by rw [hu, hlen]; omega)
  rw [this, hu, hdrop2, List.take_left]

theorem Read_record (M : Memory) (t : store) (A B p : List Byte) (h : Ready t.buf t.file)
    (hs : t.stream = A ++ record p ++ B) (hp : M.Fits p.length)
    (hr : A.length + lenWidth + p.length < 2 ^ 63) :
    (t.Read M A.length).1 = Outcome.returns (p, none) := by
  obtain ⟨f1, _, f3, f4, _⟩ := Flush_ready t.buf t.file h
  exact Read_record_flushed M t A B p f1 f4.1 (by rw [f3]; exact hs) hp hr

theorem Flush_empty (b : Writer) (f : File) (he : b.err = none) (hb : b.buf = []) :
    b.Flush f = (none, b, f) := by
  unfold Writer.Flush
  rw [he]
  simp [hb]

theorem step_ready (M : Memory) (s : store) (op : Op) (h : Ready s.buf s.file) :
    Ready (s.step M op).buf (s.step M op).file ∧ (∃ T, (s.step M op).stream = s.stream ++ T) ∧
    (s.step M op).buf.size = s.buf.size := by
  obtain ⟨_, f2, f3, f4, _⟩ := Flush_ready s.buf s.file h
  cases op with
  | append p =>
    obtain ⟨_, a2, a3, _, a5, _⟩ := Append_ready s p h
    refine ⟨a2, ⟨putUint64 (p.length % 2 ^ 64) ++ p, ?_⟩, a5⟩
    show (s.Append p).2.stream = _
    rw [a3, List.append_assoc]
  | read pos =>
    show Ready (s.Read M pos).2.buf (s.Read M pos).2.file ∧
      (∃ T, (s.Read M pos).2.stream = s.stream ++ T) ∧ (s.Read M pos).2.buf.size = s.buf.size
    rw [Read_state]
    refine ⟨f4, ⟨[], ?_⟩, ?_⟩
    · unfold store.stream
      simp only []
      rw [f3, f2]
    · simp only []
      rw [f2]
  | readAt q off =>
    show Ready (s.ReadAt q off).2.buf (s.ReadAt q off).2.file ∧
      (∃ T, (s.ReadAt q off).2.stream = s.stream ++ T) ∧ (s.ReadAt q off).2.buf.size = s.buf.size
    rw [ReadAt_state]
    refine ⟨f4, ⟨[], ?_⟩, ?_⟩
    · unfold store.stream
      simp only []
      rw [f3, f2]
    · simp only []
      rw [f2]

/-- A sequence of calls on a store with a ready writer keeps it ready and only
extends the byte stream. -/
theorem run_ready (M : Memory) (ops : List Op) : ∀ (s : store), Ready s.buf s.file →
    Ready (s.run M ops).buf (s.run M ops).file ∧ (∃ T, (s.run M ops).stream = s.stream ++ T) := by
  induction ops with
  | nil => intro s h; exact ⟨h, [], by simp [store.run]⟩
  | cons op ops ih =>
    intro s h
    obtain ⟨s1, ⟨T1, s2⟩, _⟩ := step_ready M s op h
    obtain ⟨i1, T2, i2⟩ := ih (s.step M op) s1
    refine ⟨i1, T1 ++ T2, ?_⟩
    show ((s.step M op).run M ops).stream = _
    rw [i2, s2, List.append_assoc]

/-! ## The bytes of the file are only extended -/

theorem writeLoop_data (fuel : Nat) : ∀ (b : Writer) (f : File) (p : List Byte) (nn : Nat),
    Ready b f → ∃ T, (Writer.writeLoop fuel b f p nn).2.2.2.data = f.data ++ T := by
  induction fuel with
  | zero => intro b f p nn _; exact ⟨[], by simp [Writer.writeLoop]⟩
  | succ k ih =>
    intro b f p nn h
    unfold Writer.writeLoop
    by_cases hc : p.length > b.Available ∧ b.err = none
    · rw [if_pos hc]
      by_cases hz : b.Buffered = 0
      · rw [if_pos hz]
        simp only []
        rw [File.Write_open f p h.1 h.2.1]
        simp only []
        have hr : Ready { b with err := none }
            { f with data := f.data ++ p, offset := f.data.length + p.length } :=
          ⟨h.1, Or.inr (by simp), rfl⟩
        obtain ⟨T, hT⟩ := ih { b with err := none }
          { f with data := f.data ++ p, offset := f.data.length + p.length }
          (p.drop p.length) (nn + p.length) hr
        exact ⟨p ++ T, by rw [hT, List.append_assoc]⟩
      · rw [if_neg hz]
        simp only []
        have hr : Ready { b with buf := b.buf ++ p.take (min b.Available p.length) } f :=
          ⟨h.1, h.2.1, h.2.2⟩
        obtain ⟨_, _, f3, f4, _⟩ :=
          Flush_ready { b with buf := b.buf ++ p.take (min b.Available p.length) } f hr
        obtain ⟨T, hT⟩ :=
          ih (Writer.Flush { b with buf := b.buf ++ p.take (min b.Available p.length) } f).2.1
            (Writer.Flush { b with buf := b.buf ++ p.take (min b.Available p.length) } f).2.2
            (p.drop (min b.Available p.length)) (nn + min b.Available p.length) f4
        exact ⟨_, by rw [hT, f3, List.append_assoc]⟩
    · rw [if_neg hc]
      exact ⟨[], by simp⟩

theorem Write_data (b : Writer) (f : File) (p : List Byte) (h : Ready b f) :
    ∃ T, (b.Write f p).2.2.data = f.data ++ T := by
  obtain ⟨T, hT⟩ := writeLoop_data (p.length + 3) b f p 0 h
  refine ⟨T, ?_⟩
  unfold Writer.Write
  simp only []
  split <;> exact hT

theorem Append_data (s : store) (p : List Byte) (h : Ready s.buf s.file) :
    ∃ T, (s.Append p).2.file.data = s.file.data ++ T := by
  obtain ⟨a1, a2, _⟩ := binaryWrite_ready s.buf s.file p.length h
  obtain ⟨b1, _⟩ :=
    Write_ready (binaryWrite s.buf s.file p.length).2.1 (binaryWrite s.buf s.file p.length).2.2 p a2
  have hb1 : ((binaryWrite s.buf s.file p.length).2.1.Write
      (binaryWrite s.buf s.file p.length).2.2 p).1.2 = none := by rw [b1]
  obtain ⟨T1, h1⟩ := Write_data s.buf s.file (putUint64 (p.length % 2 ^ 64)) h
  obtain ⟨T2, h2⟩ := Write_data (binaryWrite s.buf s.file p.length).2.1
    (binaryWrite s.buf s.file p.length).2.2 p a2
  refine ⟨T1 ++ T2, ?_⟩
  rw [Append_eq_ok s p a1 hb1]
  simp only []
  rw [h2]
  unfold binaryWrite
  simp only []
  rw [h1, List.append_assoc]

theorem step_data (M : Memory) (s : store) (op : Op) (h : Ready s.buf s.file) :
    ∃ T, (s.step M op).file.data = s.file.data ++ T := by
  obtain ⟨_, _, f3, _, _⟩ := Flush_ready s.buf s.file h
  cases op with
  | append p => exact Append_data s p h
  | read pos =>
    refine ⟨s.buf.buf, ?_⟩
    show (s.Read M pos).2.file.data = _
    rw [Read_state]
    exact f3
  | readAt q off =>
    refine ⟨s.buf.buf, ?_⟩
    show (s.ReadAt q off).2.file.data = _
    rw [ReadAt_state]
    exact f3

/-- A sequence of calls on a store with a ready writer only extends the bytes of the file. -/
theorem run_data (M : Memory) (ops : List Op) : ∀ (s : store), Ready s.buf s.file →
    ∃ T, (s.run M ops).file.data = s.file.data ++ T := by
  induction ops with
  | nil => intro s _; exact ⟨[], by simp [store.run]⟩
  | cons op ops ih =>
    intro s h
    obtain ⟨s1, _, _⟩ := step_ready M s op h
    obtain ⟨T1, h1⟩ := step_data M s op h
    obtain ⟨T2, h2⟩ := ih (s.step M op) s1
    refine ⟨T1 ++ T2, ?_⟩
    show ((s.step M op).run M ops).file.data = _
    rw [h2, h1, List.append_assoc]

theorem Consistent_ready (s : store) (p : List Byte) (hc : s.Consistent)
    (ha : (s.Append p).1.2.2 = none) : Ready s.buf s.file :=
  ⟨hc.1, hc.2.1, Append_ok_err s p ha⟩

theorem Consistent_stream (s : store) (hc : s.Consistent) : s.stream.length = s.size := by
  unfold store.stream
  rw [hc.2.2, List.length_append]

/-! ## Opening, closing and sequences of Appends -/

theorem newStore_ok (f : File) (s0 : store) (h : newStore f = Except.ok s0) :
    s0.file = f ∧ s0.buf = NewWriter ∧ s0.size = f.data.length % 2 ^ 64 := by
  unfold newStore File.Stat at h
  by_cases hl : f.linked = true
  · rw [if_pos hl] at h
    simp only [Except.ok.injEq] at h
    subst h
    refine ⟨rfl, rfl, ?_⟩
    show ((f.data.length : Int) % 2 ^ 64).toNat = f.data.length % 2 ^ 64
    omega
  · rw [if_neg hl] at h
    simp at h

theorem Close_ok (s : store) (h : s.Close.1 = none) :
    (s.buf.Flush s.file).1 = none ∧ s.Close.2.file.data = (s.buf.Flush s.file).2.2.data ∧
    s.Close.2.buf = (s.buf.Flush s.file).2.1 ∧ s.buf.err = none := by
  have herr : s.buf.err = none := by
    cases he : s.buf.err with
    | none => rfl
    | some e =>
      exfalso
      unfold store.Close at h
      simp [Flush_err s.buf s.file e he] at h
  cases hfl : (s.buf.Flush s.file).1 with
  | some e =>
    exfalso
    unfold store.Close at h
    simp [hfl] at h
  | none =>
    refine ⟨rfl, ?_, ?_, herr⟩
    · unfold store.Close
      simp only [hfl]
      unfold File.Close
      split <;> rfl
    · unfold store.Close
      simp only [hfl]

theorem Close_state (s : store) :
    s.Close.2.file.data = (s.buf.Flush s.file).2.2.data := by
  unfold store.Close
  simp only []
  split
  · rfl
  · unfold File.Close
    simp only []
    split <;> rfl

theorem layout_length (ps : List (List Byte)) :
    (layout ps).length = totalLen ps + 8 * ps.length := by
  induction ps with
  | nil => rfl
  | cons p ps ih =>
    simp only [layout, record, totalLen, List.length_append, List.length_cons, putUint64_length, ih]
    omega

/-- Successful Appends of `ps` add `layout ps` at the end of the byte stream, keep
`size` equal to its length, and return as offsets the positions of the records. -/
theorem appendAll_ready (ps : List (List Byte)) : ∀ (s : store) (offs : List Nat) (t : store),
    Ready s.buf s.file → s.size = s.stream.length →
    s.stream.length + (layout ps).length < 2 ^ 64 →
    s.appendAll ps = some (offs, t) →
    Ready t.buf t.file ∧ t.stream = s.stream ++ layout ps ∧ t.size = t.stream.length ∧
    t.buf.size = s.buf.size ∧
    (∀ o p, (o, p) ∈ offs.zip ps →
      ∃ A B, t.stream = A ++ record p ++ B ∧ A.length = o ∧ s.stream.length ≤ o) := by
  induction ps with
  | nil =>
    intro s offs t h hs _ ha
    simp only [store.appendAll, Option.some.injEq, Prod.mk.injEq] at ha
    obtain ⟨h1, h2⟩ := ha
    subst h1 h2
    exact ⟨h, by simp [layout], hs, rfl, by simp⟩
  | cons p ps ih =>
    intro s offs t h hs hb ha
    have h8 : lenWidth = 8 := rfl
    obtain ⟨a1, a2, a3, a4, a5, _⟩ := Append_ready s p h
    have hl : (layout (p :: ps)).length = 8 + p.length + (layout ps).length := by
      simp [layout, record, putUint64_length]
      omega
    have hm : p.length % 2 ^ 64 = p.length := Nat.mod_eq_of_lt (by omega)
    have hw : (p.length + lenWidth) % 2 ^ 64 = p.length + 8 := by
      rw [h8]; exact Nat.mod_eq_of_lt (by omega)
    have hst : (s.Append p).2.stream = s.stream ++ record p := by
      rw [a3, hm, List.append_assoc]; rfl
    have hlen : (s.Append p).2.stream.length = s.stream.length + (8 + p.length) := by
      rw [hst]
      simp [record, putUint64_length]
    have hsz : (s.Append p).2.size = (s.Append p).2.stream.length := by
      rw [a4, hw, hlen, hs]
      omega
    have herr : (s.Append p).1.2.2 = none := by rw [a1]
    unfold store.appendAll at ha
    simp only [herr] at ha
    cases hrest : (s.Append p).2.appendAll ps with
    | none => simp [hrest] at ha
    | some r =>
      simp only [hrest, Option.some.injEq, Prod.mk.injEq] at ha
      obtain ⟨ho, ht⟩ := ha
      have hb2 : (s.Append p).2.stream.length + (layout ps).length < 2 ^ 64 := by omega
      obtain ⟨i1, i2, i3, i4, i5⟩ := ih (s.Append p).2 r.1 r.2 a2 hsz hb2 hrest
      subst ht
      refine ⟨i1, ?_, i3, by rw [i4, a5], ?_⟩
      · rw [i2, hst, List.append_assoc]; rfl
      · intro o q hmem
        rw [← ho] at hmem
        simp only [List.zip_cons_cons, List.mem_cons, Prod.mk.injEq] at hmem
        rcases hmem with ⟨e1, e2⟩ | hmem
        · refine ⟨s.stream, layout ps, ?_, ?_, ?_⟩
          · rw [i2, hst, e2]
          · rw [e1, a1, hs]
          · rw [e1, a1, hs]
        · obtain ⟨A, B, j1, j2, j3⟩ := i5 o q hmem
          exact ⟨A, B, j1, j2, by omega⟩

theorem ReadAt_all (t : store) (q : List Byte) (h : Ready t.buf t.file)
    (hq : q.length = t.stream.length) :
    (t.ReadAt q 0).1 = (t.stream, t.stream.length, none) := by
  obtain ⟨f1, _, f3, f4, _⟩ := Flush_ready t.buf t.file h
  have hd : (t.buf.Flush t.file).2.2.data = t.stream := f3
  have hr : (t.buf.Flush t.file).2.2.ReadAt q.length 0 = (t.stream, none) := by
    unfold File.ReadAt
    rw [f4.1, hd, hq, if_neg (by omega)]
    by_cases hz : t.stream.length = 0
    · rw [if_pos hz, List.length_eq_zero.mp hz]
    · rw [if_neg hz]
      simp
  unfold store.ReadAt
  simp only [f1, hr, ← hq]
  simp

theorem flushed_length (s : store) (h : Ready s.buf s.file) (hs : s.size = s.stream.length) :
    (s.buf.Flush s.file).2.2.data.length = s.size := by
  obtain ⟨_, _, f3, _, _⟩ := Flush_ready s.buf s.file h
  rw [f3, hs]
  rfl

theorem Append_account (s : store) (p : List Byte) (h : Ready s.buf s.file)
    (hs : s.size = s.stream.length) (hb : s.stream.length + (8 + p.length) < 2 ^ 64) :
    (s.Append p).1 = (p.length + 8, s.size, none) ∧ Ready (s.Append p).2.buf (s.Append p).2.file ∧
    (s.Append p).2.stream = s.stream ++ record p ∧
    (s.Append p).2.size = (s.Append p).2.stream.length ∧
    (s.Append p).2.size = s.size + (8 + p.length) := by
  have h8 : lenWidth = 8 := rfl
  obtain ⟨a1, a2, a3, a4, _⟩ := Append_ready s p h
  have hm : p.length % 2 ^ 64 = p.length := Nat.mod_eq_of_lt (by omega)
  have hw : (p.length + lenWidth) % 2 ^ 64 = p.length + 8 := by
    rw [h8]; exact Nat.mod_eq_of_lt (by omega)
  have hst : (s.Append p).2.stream = s.stream ++ record p := by
    rw [a3, hm, List.append_assoc]; rfl
  have hlen : (s.Append p).2.stream.length = s.stream.length + (8 + p.length) := by
    rw [hst]
    simp [record, putUint64_length]
  refine ⟨by rw [a1, hw], a2, hst, ?_, ?_⟩
  · rw [a4, hw, hlen, hs]
    omega
  · rw [a4, hw, hs]
    omega

theorem reads_keep (M : Memory) (s : store) (op : Op) (h : Ready s.buf s.file)
    (hop : ∀ p, op ≠ Op.append p) :
    Ready (s.step M op).buf (s.step M op).file ∧ (s.step M op).stream = s.stream ∧
    (s.step M op).size = s.size := by
  obtain ⟨_, f2, f3, f4, _⟩ := Flush_ready s.buf s.file h
  cases op with
  | append p => exact absurd rfl (hop p)
  | read pos =>
    show Ready (s.Read M pos).2.buf (s.Read M pos).2.file ∧
      (s.Read M pos).2.stream = s.stream ∧ (s.Read M pos).2.size = s.size
    rw [Read_state]
    refine ⟨f4, ?_, rfl⟩
    unfold store.stream
    simp only []
    rw [f3, f2]
    simp
  | readAt q off =>
    show Ready (s.ReadAt q off).2.buf (s.ReadAt q off).2.file ∧
      (s.ReadAt q off).2.stream = s.stream ∧ (s.ReadAt q off).2.size = s.size
    rw [ReadAt_state]
    refine ⟨f4, ?_, rfl⟩
    unfold store.stream
    simp only []
    rw [f3, f2]
    simp

/-- At every initial part of a sequence of calls `size` is the length of the byte
stream, and has grown by the records of the Appends that succeeded. -/
theorem run_account (M : Memory) (ops : List Op) : ∀ (s : store) (k : Nat),
    Ready s.buf s.file → s.size = s.stream.length →
    s.stream.length + (layout (s.appended M ops)).length < 2 ^ 64 →
    Ready (s.run M (ops.take k)).buf (s.run M (ops.take k)).file ∧
    (s.run M (ops.take k)).size = (s.run M (ops.take k)).stream.length ∧
    (s.run M (ops.take k)).size = s.size + (layout (s.appended M (ops.take k))).length := by
  induction ops with
  | nil => intro s k h hs _; simp [store.run, store.appended, layout, h, hs]
  | cons op ops ih =>
    intro s k h hs hb
    cases k with
    | zero => simp [store.run, store.appended, layout, h, hs]
    | succ k =>
      rw [List.take_succ_cons]
      cases op with
      | append p =>
        have hl : ∀ xs : List (List Byte), (layout (p :: xs)).length
            = 8 + p.length + (layout xs).length := by
          intro xs
          simp [layout, record, putUint64_length]
          omega
        have herr : (s.Append p).1.2.2 = none := by rw [(Append_ready s p h).1]
        have e1 : ∀ l, s.appended M (Op.append p :: l)
            = p :: ((s.Append p).2).appended M l := by
          intro l
          simp [store.appended, herr, store.step]
        rw [e1, hl] at hb
        obtain ⟨_, a2, _, a4, a5⟩ := Append_account s p h hs (by omega)
        obtain ⟨i1, i2, i3⟩ := ih (s.Append p).2 k a2 a4 (by rw [← a4, a5, hs]; omega)
        rw [e1, hl]
        refine ⟨i1, i2, ?_⟩
        show ((s.Append p).2.run M (ops.take k)).size = _
        rw [i3, a5]
        omega
      | read pos =>
        obtain ⟨r1, r2, r3⟩ := reads_keep M s (Op.read pos) h (by intro p; simp)
        have e1 : ∀ l, s.appended M (Op.read pos :: l)
            = (s.step M (Op.read pos)).appended M l := by
          intro l
          simp [store.appended]
        rw [e1] at hb
        obtain ⟨i1, i2, i3⟩ := ih (s.step M (Op.read pos)) k r1 (by rw [r3, r2, hs])
          (by rw [r2]; exact hb)
        rw [e1]
        refine ⟨i1, i2, ?_⟩
        show ((s.step M (Op.read pos)).run M (ops.take k)).size = _
        rw [i3, r3]
      | readAt q off =>
        obtain ⟨r1, r2, r3⟩ := reads_keep M s (Op.readAt q off) h (by intro p; simp)
        have e1 : ∀ l, s.appended M (Op.readAt q off :: l)
            = (s.step M (Op.readAt q off)).appended M l := by
          intro l
          simp [store.appended]
        rw [e1] at hb
        obtain ⟨i1, i2, i3⟩ := ih (s.step M (Op.readAt q off)) k r1 (by rw [r3, r2, hs])
          (by rw [r2]; exact hb)
        rw [e1]
        refine ⟨i1, i2, ?_⟩
        show ((s.step M (Op.readAt q off)).run M (ops.take k)).size = _
        rw [i3, r3]

theorem fresh_ready (f : File) (s0 : store) (ho : f.closed = false) (he : f.AtEnd)
    (hn : newStore f = Except.ok s0) :
    Ready s0.buf s0.file ∧ s0.stream = f.data ∧ s0.size = f.data.length % 2 ^ 64 ∧
    s0.buf.buf = [] := by
  obtain ⟨n1, n2, n3⟩ := newStore_ok f s0 hn
  refine ⟨?_, ?_, n3, ?_⟩
  · rw [n1, n2]
    exact ⟨ho, he, rfl⟩
  · unfold store.stream
    rw [n1, n2]
    simp [NewWriter]
  · rw [n2]
    rfl

theorem opened_ready (appendFlag : Bool) (s0 : store)
    (hn : newStore (openFile [] appendFlag) = Except.ok s0) :
    Ready s0.buf s0.file ∧ s0.stream = [] ∧ s0.size = 0 := by
  obtain ⟨n1, n2, n3, _⟩ := fresh_ready (openFile [] appendFlag) s0 rfl (Or.inr rfl) hn
  exact ⟨n1, n2, n3⟩

theorem appendAll_start (s : store) (ps : List (List Byte)) (offs : List Nat) (t : store)
    (ha : s.appendAll ps = some (offs, t)) (ht : t.buf.err = none) : s.buf.err = none := by
  cases ps with
  | nil =>
    simp only [store.appendAll, Option.some.injEq, Prod.mk.injEq] at ha
    rw [ha.2]
    exact ht
  | cons p ps =>
    cases herr : (s.Append p).1.2.2 with
    | none => exact Append_ok_err s p herr
    | some e =>
      exfalso
      unfold store.appendAll at ha
      simp [herr] at ha

theorem Flush_closed (b : Writer) (f : File) : (b.Flush f).2.2.closed = f.closed := by
  unfold Writer.Flush
  split
  · rfl
  · split
    · rfl
    · simp only []
      have hw : (f.Write b.buf).2.closed = f.closed := by
        unfold File.Write
        split <;> rfl
      split <;> exact hw

/-! ## The claims -/

/-- C1 (round trip): in a consistent state, when `Append p` succeeds and returns
the offset `o`, the `Read o` that follows succeeds and returns exactly `p`, the
empty payload included. The payload is a Go slice (`make` can allocate its
length) and the record ends within the `int64` range of file offsets. -/
theorem append_read_round_trip (mem : Memory) (s : store) (p : List Byte)
    (hc : s.Consistent) (hp : mem.Fits p.length)
    (hr : s.size + lenWidth + p.length < 2 ^ 63)
    (ha : (s.Append p).1.2.2 = none) :
    ((s.Append p).2.Read mem (s.Append p).1.2.1).1 = Outcome.returns (p, none) := by
  have hrd := Consistent_ready s p hc ha
  obtain ⟨a1, a2, a3, _⟩ := Append_ready s p hrd
  have hlen := Consistent_stream s hc
  have ho : (s.Append p).1.2.1 = s.stream.length := by rw [a1, hlen]
  have hm : p.length % 2 ^ 64 = p.length := Nat.mod_eq_of_lt (by omega)
  rw [ho]
  apply Read_record mem (s.Append p).2 s.stream [] p a2 _ hp (by rw [hlen]; exact hr)
  rw [a3, hm]
  simp [record]

/-- The witness of C1: `hello` appended to the empty store and read back at
offset 0, and the empty payload appended to a store over a file of 26 bytes
and read back at offset 26. -/
theorem append_read_round_trip_witness :
    store0.Consistent ∧ (store0.Append hello).1 = (13, 0, none) ∧
    ((store0.Append hello).2.Read linuxMem 0).1 = Outcome.returns (hello, none) ∧
    store3.Consistent ∧ (store3.Append []).1 = (8, 26, none) ∧
    ((store3.Append []).2.Read linuxMem 26).1 = Outcome.returns ([], none) :=
  ⟨by decide, by decide,
   append_read_round_trip linuxMem store0 hello (by decide) (by decide) (by decide) (by decide),
   by decide, by decide,
   append_read_round_trip linuxMem store3 [] (by decide) (by decide) (by decide) (by decide)⟩

/-- C2 (Append postcondition): a successful `Append p` on a store of size `s`
returns `bytesWritten = len(p) + 8` and `offset = s` and leaves
`size = s + len(p) + 8`, as `uint64` values (modulo `2 ^ 64`), and exactly so
whenever `s + len(p) + 8` is below `2 ^ 64`; hence the next successful Append
returns the offset `o + len(p) + 8`. -/
theorem append_postcondition (s : store) (p : List Byte) (ha : (s.Append p).1.2.2 = none) :
    (s.Append p).1 = ((p.length + 8) % 2 ^ 64, s.size, none) ∧
    (s.Append p).2.size = (s.size + (p.length + 8) % 2 ^ 64) % 2 ^ 64 ∧
    (s.size + p.length + 8 < 2 ^ 64 →
      (s.Append p).1 = (p.length + 8, s.size, none) ∧
      (s.Append p).2.size = s.size + p.length + 8) ∧
    (∀ p2 : List Byte, ((s.Append p).2.Append p2).1.2.2 = none →
      ((s.Append p).2.Append p2).1.2.1
        = ((s.Append p).1.2.1 + (p.length + 8) % 2 ^ 64) % 2 ^ 64 ∧
      (s.size + p.length + 8 < 2 ^ 64 →
        ((s.Append p).2.Append p2).1.2.1 = (s.Append p).1.2.1 + p.length + 8)) := by
  have h8 : lenWidth = 8 := rfl
  obtain ⟨h1, h2⟩ := Append_ok s p ha
  rw [h8] at h1 h2
  have hex : s.size + p.length + 8 < 2 ^ 64 →
      (p.length + 8) % 2 ^ 64 = p.length + 8 ∧
      (s.size + (p.length + 8) % 2 ^ 64) % 2 ^ 64 = s.size + p.length + 8 := by
    intro hlt
    have e1 : (p.length + 8) % 2 ^ 64 = p.length + 8 := Nat.mod_eq_of_lt (by omega)
    rw [e1]
    exact ⟨rfl, by rw [Nat.mod_eq_of_lt (by omega)]; omega⟩
  refine ⟨h1, h2, ?_, ?_⟩
  · intro hlt
    obtain ⟨e1, e2⟩ := hex hlt
    rw [h1, h2, e2, e1]
    exact ⟨rfl, rfl⟩
  · intro p2 ha2
    obtain ⟨g1, _⟩ := Append_ok (s.Append p).2 p2 ha2
    have o2 : ((s.Append p).2.Append p2).1.2.1 = (s.Append p).2.size := by rw [g1]
    have o1 : (s.Append p).1.2.1 = s.size := by rw [h1]
    rw [o2, o1, h2]
    refine ⟨rfl, ?_⟩
    intro hlt
    exact (hex hlt).2

/-- The witness of C2: `hello` then `world` appended to the empty store return
`(13, 0)` and `(13, 13)` and leave the sizes 13 and 26. -/
theorem append_postcondition_witness :
    (store0.Append hello).1 = (13, 0, none) ∧ (store0.Append hello).2.size = 13 ∧
    ((store0.Append hello).2.Append world).1 = (13, 13, none) ∧
    ((store0.Append hello).2.Append world).2.size = 26 ∧
    ((store0.Append hello).2.Append world).1.2.1 = (store0.Append hello).1.2.1 + hello.length + 8 :=
  ⟨by decide, by decide, by decide, by decide,
   ((append_postcondition store0 hello (by decide)).2.2.2 world (by decide)).2 (by decide)⟩

/-- C3, the claim as stated fails: over a handle opened without `O_APPEND` on
the file of 26 bytes that holds the records of `hello` and `world`, `newStore`
returns a store on which `Append nested` succeeds and returns the offset 26;
the `Read 26` that follows returns `EOF`, not the payload, and the flush of
that Read has overwritten the bytes of the file from its start, which an
earlier Append wrote: its first byte of payload, at index 8, was 104 and is 0. -/
theorem offset_unstable_plain_handle :
    newStore reopenedPlain = Except.ok store3Plain ∧
    (store3Plain.Append nested).1 = (17, 26, none) ∧
    ((store3Plain.Append nested).2.Read linuxMem 26).1
      = Outcome.returns ([], some Error.EOF) ∧
    store3Plain.file.data.drop 8 = hello ++ record world ∧
    ((store3Plain.Append nested).2.Read linuxMem 26).2.file.data.drop 8
      = nested ++ [0, 0, 0, 5, 119, 111, 114, 108, 100] ∧
    ¬ ∃ T, ((store3Plain.Append nested).2.Read linuxMem 26).2.file.data
      = store3Plain.file.data ++ T := by
  refine ⟨rfl, by decide, by decide, by decide, by decide, ?_⟩
  rintro ⟨T, hT⟩
  have h := congrArg (List.take 26) hT
  rw [List.take_append_of_le_length (show 26 ≤ store3Plain.file.data.length by decide)] at h
  exact absurd h (by decide)

/-- C3 as amended (offset stability): in a consistent state, when `Append p`
succeeded and returned the offset `o`, then after any finite sequence of
further Append, Read and ReadAt calls `Read o` still returns exactly `p`; the
byte stream of the store and the bytes of the file are only ever extended at
the end, so no byte an earlier Append wrote is overwritten or removed. -/
theorem offset_stability (mem : Memory) (s : store) (p : List Byte) (ops : List Op)
    (hc : s.Consistent) (hp : mem.Fits p.length)
    (hr : s.size + lenWidth + p.length < 2 ^ 63)
    (ha : (s.Append p).1.2.2 = none) :
    (((s.Append p).2.run mem ops).Read mem (s.Append p).1.2.1).1
      = Outcome.returns (p, none) ∧
    (∃ T, ((s.Append p).2.run mem ops).stream = (s.Append p).2.stream ++ T) ∧
    (∃ T, ((s.Append p).2.run mem ops).file.data = (s.Append p).2.file.data ++ T) := by
  have hrd := Consistent_ready s p hc ha
  obtain ⟨a1, a2, a3, _⟩ := Append_ready s p hrd
  obtain ⟨r1, T, r2⟩ := run_ready mem ops (s.Append p).2 a2
  have hlen := Consistent_stream s hc
  have ho : (s.Append p).1.2.1 = s.stream.length := by rw [a1, hlen]
  have hm : p.length % 2 ^ 64 = p.length := Nat.mod_eq_of_lt (by omega)
  refine ⟨?_, ⟨T, r2⟩, run_data mem ops (s.Append p).2 a2⟩
  rw [ho]
  apply Read_record mem _ s.stream T p r1 _ hp (by rw [hlen]; exact hr)
  rw [r2, a3, hm]
  simp [record]

/-- The witness of C3 as amended: `hello` appended at offset 0 is still read at offset 0
after an Append of `world`, a Read, a ReadAt and a further Append. -/
theorem offset_stability_witness :
    store0.Consistent ∧
    (((store0.Append hello).2.run linuxMem
        [Op.append world, Op.read 13, Op.readAt [0, 0, 0] 5, Op.append hello]).Read
      linuxMem (store0.Append hello).1.2.1).1 = Outcome.returns (hello, none) :=
  ⟨by decide,
   (offset_stability linuxMem store0 hello
     [Op.append world, Op.read 13, Op.readAt [0, 0, 0] 5, Op.append hello]
     (by decide) (by decide) (by decide) (by decide)).1⟩

/-- C9 (a failed Append leaves `size` untouched): when writing the length of
the payload or writing the payload into the buffer returns an error, `Append`
returns `(0, 0, err)` with that error and `size` is what it was before the
call; `size` changes only when both writes succeeded. -/
theorem append_failure_keeps_size (s : store) (p : List Byte) :
    (∀ e, (binaryWrite s.buf s.file p.length).1 = some e →
      (s.Append p).1 = (0, 0, some e) ∧ (s.Append p).2.size = s.size) ∧
    (∀ e, (binaryWrite s.buf s.file p.length).1 = none →
      ((binaryWrite s.buf s.file p.length).2.1.Write
        (binaryWrite s.buf s.file p.length).2.2 p).1.2 = some e →
      (s.Append p).1 = (0, 0, some e) ∧ (s.Append p).2.size = s.size) ∧
    ((s.Append p).2.size ≠ s.size →
      (binaryWrite s.buf s.file p.length).1 = none ∧
      ((binaryWrite s.buf s.file p.length).2.1.Write
        (binaryWrite s.buf s.file p.length).2.2 p).1.2 = none) := by
  refine ⟨?_, ?_, ?_⟩
  · intro e h1
    rw [Append_eq_err1 s p e h1]
    exact ⟨rfl, rfl⟩
  · intro e h1 h2
    rw [Append_eq_err2 s p e h1 h2]
    exact ⟨rfl, rfl⟩
  · intro hne
    rcases Append_cases s p with ⟨e, _, _, h⟩ | ⟨e, _, _, _, h⟩ | ⟨h1, h2, _⟩
    · exact absurd h hne
    · exact absurd h hne
    · exact ⟨h1, h2⟩

/-- The witness of C9: on `stuckStore` the write of the length fails, on
`closedStore` the write of the payload fails; both Appends return
`(0, 0, ErrClosed)` and leave `size` as it was. -/
theorem append_failure_keeps_size_witness :
    ((stuckStore.Append hello).1 = (0, 0, some Error.ErrClosed) ∧
      (stuckStore.Append hello).2.size = stuckStore.size) ∧
    ((closedStore.Append hello).1 = (0, 0, some Error.ErrClosed) ∧
      (closedStore.Append hello).2.size = closedStore.size) :=
  ⟨(append_failure_keeps_size stuckStore hello).1 Error.ErrClosed (by decide),
   (append_failure_keeps_size closedStore hello).2.1 Error.ErrClosed
     (by decide!) (by decide!)⟩

/-- C4 (persisted layout as ReadAt sees it): after the payloads `ps` are
appended successfully to a store opened over an empty file, `ReadAt` with a
buffer of `size` bytes at offset 0 fills it completely with the records
`be64(len p) ++ p` of the payloads, one after the other and nothing else,
wherever those bytes were before the call (file or write buffer). The total
stays within the range of `size`. -/
theorem persisted_layout (appendFlag : Bool) (s0 : store) (ps : List (List Byte))
    (offs : List Nat) (s : store) (q : List Byte)
    (hn : newStore (openFile [] appendFlag) = Except.ok s0)
    (hb : (layout ps).length < 2 ^ 64)
    (ha : s0.appendAll ps = some (offs, s))
    (hq : q.length = s.size) :
    (s.ReadAt q 0).1 = (layout ps, s.size, none) ∧ (layout ps).length = s.size := by
  obtain ⟨n1, n2, n3⟩ := opened_ready appendFlag s0 hn
  have hs0 : s0.size = s0.stream.length := by rw [n3, n2]; rfl
  obtain ⟨a1, a2, a3, _⟩ := appendAll_ready ps s0 offs s n1 hs0 (by rw [n2]; simpa using hb) ha
  rw [n2, List.nil_append] at a2
  have := ReadAt_all s q a1 (by rw [hq, a3])
  rw [this, a3, a2]
  exact ⟨rfl, rfl⟩

/-- The witness of C4: `hello` and `world` appended to the empty store are
both still in the write buffer, and `ReadAt` fills 26 bytes with the two records. -/
theorem persisted_layout_witness :
    (store0.appendAll [hello, world]).map (fun r => r.2.file.data) = some [] ∧
    (((store0.Append hello).2.Append world).2.ReadAt (List.replicate 26 0) 0).1
      = ([0, 0, 0, 0, 0, 0, 0, 5, 104, 101, 108, 108, 111,
          0, 0, 0, 0, 0, 0, 0, 5, 119, 111, 114, 108, 100], 26, none) :=
  ⟨by decide,
   (persisted_layout false store0 [hello, world] [0, 13]
     ((store0.Append hello).2.Append world).2 (List.replicate 26 0)
     rfl (by decide) (by decide) (by decide)).1⟩

/-- C6 (size accounting): for a store opened over an empty file and a sequence
of Append, Read and ReadAt calls, at every point of the sequence `size` is
`S + 8 * N`, with `N` the number of Appends that succeeded so far and `S` the
total length of their payloads, and `size` is the number of bytes in the file
plus the number of bytes pending in the buffer; so after the flush of a Read,
a ReadAt or a Close the length of the file is `size`. The total stays within
the range of `size`. -/
theorem size_accounting (mem : Memory) (appendFlag : Bool) (s0 : store) (ops : List Op)
    (k : Nat)
    (hn : newStore (openFile [] appendFlag) = Except.ok s0)
    (hb : totalLen (s0.appended mem ops) + 8 * (s0.appended mem ops).length < 2 ^ 64) :
    (s0.run mem (ops.take k)).size
      = totalLen (s0.appended mem (ops.take k))
        + 8 * (s0.appended mem (ops.take k)).length ∧
    (s0.run mem (ops.take k)).size
      = (s0.run mem (ops.take k)).file.data.length
        + (s0.run mem (ops.take k)).buf.buf.length ∧
    (∀ pos, ((s0.run mem (ops.take k)).Read mem pos).2.file.data.length
      = (s0.run mem (ops.take k)).size) ∧
    (∀ q off, ((s0.run mem (ops.take k)).ReadAt q off).2.file.data.length
      = (s0.run mem (ops.take k)).size) ∧
    (s0.run mem (ops.take k)).Close.2.file.data.length
      = (s0.run mem (ops.take k)).size := by
  obtain ⟨n1, n2, hz⟩ := opened_ready appendFlag s0 hn
  have hs0 : s0.size = s0.stream.length := by rw [hz, n2]; rfl
  obtain ⟨r1, r2, r3⟩ := run_account mem ops s0 k n1 hs0
    (by rw [n2, layout_length]; simpa using hb)
  have hfl := flushed_length _ r1 r2
  refine ⟨?_, ?_, ?_, ?_, ?_⟩
  · rw [r3, hz, layout_length]
    omega
  · rw [r2]
    unfold store.stream
    rw [List.length_append]
  · intro pos
    rw [Read_state]
    exact hfl
  · intro q off
    rw [ReadAt_state]
    exact hfl
  · rw [Close_state]
    exact hfl

/-- The witness of C6: two Appends with a Read and a ReadAt in between leave
`size = 10 + 8 * 2 = 26`, and a Close leaves a file of 26 bytes. -/
theorem size_accounting_witness :
    newStore emptyFile = Except.ok store0 ∧
    (store0.run linuxMem [Op.append hello, Op.read 0, Op.readAt [0, 0] 3, Op.append world]).size
      = 26 ∧
    (store0.run linuxMem
      [Op.append hello, Op.read 0, Op.readAt [0, 0] 3, Op.append world]).Close.2.file.data.length
      = 26 :=
  ⟨rfl, by decide,
   (size_accounting linuxMem false store0
     [Op.append hello, Op.read 0, Op.readAt [0, 0] 3, Op.append world] 4
     rfl (by decide)).2.2.2.2⟩

/-- C5, the claim as stated fails: `hello` and `world` are appended to the empty
store, the store is closed, and a store is opened over the same file of 26
bytes through a handle without `O_APPEND`. It starts with size 26 and an empty
buffer and its first Append returns the offset 26, but the bytes of that
Append are written at the cursor of the handle, the start of the file: `Read 0`
no longer returns `hello`, the record written there before the Close, and
`Read 26` finds no record at the offset the Append returned. -/
theorem restart_plain_handle_overwrites :
    store0.appendAll [hello, world] = some ([0, 13], store2) ∧ store2.Close.1 = none ∧
    newStore reopenedPlain = Except.ok store3Plain ∧
    (store3Plain.Read linuxMem 0).1 = Outcome.returns (hello, none) ∧
    (store3Plain.Append world).1 = (13, 26, none) ∧
    ((store3Plain.Append world).2.Read linuxMem 0).1 = Outcome.returns (world, none) ∧
    ((store3Plain.Append world).2.Read linuxMem 0).1 ≠ Outcome.returns (hello, none) ∧
    ((store3Plain.Append world).2.Read linuxMem 26).1
      = Outcome.returns ([], some Error.EOF) :=
  ⟨by decide, by decide, rfl, by decide, by decide, by decide, by decide, by decide⟩

/-- C5 as amended (restart resumption): after successful Appends on a
consistent store and a successful Close, the length of the file is the `size`
of the store at Close; a store then opened over the same file starts with
`size` equal to that length and an empty buffer, its first Append returns that
length as its offset, and Read on the new store returns every record written
before the Close at its original offset; when the writes of the new handle
land at the end of the file (it was opened with `O_APPEND`), every such record
is still returned unchanged after any further Append, Read and ReadAt calls on
the new store. The payloads are Go slices and the file stays within the
`int64` range of offsets. -/
theorem restart_resumption (mem : Memory) (s : store) (ps : List (List Byte))
    (offs : List Nat) (s1 : store) (g : File) (s3 : store)
    (hc : s.Consistent)
    (hM : ∀ p ∈ ps, mem.Fits p.length)
    (hb : s.size + (layout ps).length < 2 ^ 63)
    (ha : s.appendAll ps = some (offs, s1))
    (hcl : s1.Close.1 = none)
    (hg : g.data = s1.Close.2.file.data) (hgo : g.closed = false)
    (hn : newStore g = Except.ok s3) :
    s1.Close.2.file.data.length = s1.size ∧
    s3.size = s1.Close.2.file.data.length ∧ s3.buf.buf = [] ∧
    (∀ q, (s3.Append q).1.2.2 = none → (s3.Append q).1.2.1 = s1.Close.2.file.data.length) ∧
    (∀ o p, (o, p) ∈ offs.zip ps → (s3.Read mem o).1 = Outcome.returns (p, none)) ∧
    (g.AtEnd → ∀ ops o p, (o, p) ∈ offs.zip ps →
      ((s3.run mem ops).Read mem o).1 = Outcome.returns (p, none)) := by
  have h8 : lenWidth = 8 := rfl
  obtain ⟨c1, c2, _, c4⟩ := Close_ok s1 hcl
  have hrd : Ready s.buf s.file := ⟨hc.1, hc.2.1, appendAll_start s ps offs s1 ha c4⟩
  have hlen := Consistent_stream s hc
  obtain ⟨a1, a2, a3, _, a5⟩ := appendAll_ready ps s offs s1 hrd hlen.symm
    (by rw [hlen]; omega) ha
  obtain ⟨_, _, f3, _, _⟩ := Flush_ready s1.buf s1.file a1
  have hdata : s1.Close.2.file.data = s1.stream := by rw [c2, f3]; rfl
  have hsl : s1.stream.length = s.size + (layout ps).length := by
    rw [a2, List.length_append, hlen]
  obtain ⟨n1, n2, n3⟩ := newStore_ok g s3 hn
  have hsz : s3.size = s1.Close.2.file.data.length := by
    rw [n3, hg]
    exact Nat.mod_eq_of_lt (by rw [hdata, hsl]; omega)
  have hfl : s3.buf.Flush s3.file = (none, s3.buf, s3.file) :=
    Flush_empty s3.buf s3.file (by rw [n2]; rfl) (by rw [n2]; rfl)
  have hrec : ∀ o p, (o, p) ∈ offs.zip ps → ∃ A B, s1.stream = A ++ record p ++ B ∧
      A.length = o ∧ mem.Fits p.length ∧ A.length + lenWidth + p.length < 2 ^ 63 := by
    intro o p hmem
    obtain ⟨A, B, j1, j2, _⟩ := a5 o p hmem
    have hl : s1.stream.length = A.length + (8 + p.length) + B.length := by
      rw [j1]
      simp [record, putUint64_length]
      omega
    exact ⟨A, B, j1, j2, hM p (List.of_mem_zip hmem).2, by rw [h8]; omega⟩
  refine ⟨by rw [hdata, a3], hsz, by rw [n2]; rfl, ?_, ?_, ?_⟩
  · intro q hq
    rw [(Append_ok s3 q hq).1]
    exact hsz
  · intro o p hmem
    obtain ⟨A, B, j1, j2, j3, j4⟩ := hrec o p hmem
    rw [← j2]
    apply Read_record_flushed mem s3 A B p (by rw [hfl]) (by rw [hfl, n1]; exact hgo) _ j3 j4
    rw [hfl]
    show s3.file.data = _
    rw [n1, hg, hdata, j1]
  · intro hge ops o p hmem
    obtain ⟨A, B, j1, j2, j3, j4⟩ := hrec o p hmem
    obtain ⟨m1, m2, _, _⟩ := fresh_ready g s3 hgo hge hn
    obtain ⟨r1, T, r2⟩ := run_ready mem ops s3 m1
    rw [← j2]
    apply Read_record mem _ A (B ++ T) p r1 _ j3 j4
    rw [r2, m2, hg, hdata, j1]
    simp [List.append_assoc]

/-- The witness of C5 as amended: `hello` and `world` are appended to the empty
store, the store is closed and the file of 26 bytes reopened with `O_APPEND`;
the new store starts with size 26, its first Append returns the offset 26, and
`world` is still read at offset 13 after that Append. -/
theorem restart_resumption_witness :
    store0.appendAll [hello, world] = some ([0, 13], store2) ∧ store2.Close.1 = none ∧
    newStore reopened = Except.ok store3 ∧ (store3.Append hello).1 = (13, 26, none) ∧
    ((store3.run linuxMem [Op.append hello]).Read linuxMem 13).1
      = Outcome.returns (world, none) :=
  ⟨by decide, by decide, rfl, by decide,
   (restart_resumption linuxMem store0 [hello, world] [0, 13] store2 reopened store3
     (by decide) (by decide) (by decide) (by decide) (by decide) (by decide) (by decide)
     rfl).2.2.2.2.2 (by decide) [Op.append hello] 13 world (by decide)⟩

/-- C7, the claim as stated fails: after `ones` is appended to the empty store
the file has 16 bytes once flushed and the eight bytes at offset 8 decode to
`n = 2 ^ 64 - 1`, so `8 + 8 + n` is past the end, yet `Read 8` returns no
error: `make` panics, even with the most memory there can be. -/
theorem read_huge_length_panics :
    ((store0.Append ones).2.buf.Flush (store0.Append ones).2.file).2.2.data.length = 16 ∧
    uint64 (((store0.Append ones).2.buf.Flush (store0.Append ones).2.file).2.2.data.drop 8)
      = 2 ^ 64 - 1 ∧
    16 < 8 + 8 + (2 ^ 64 - 1) ∧
    ((store0.Append ones).2.Read hugeMem 8).1 = Outcome.panics := by
  decide

/-- C7 as amended (Read is whole success or failure): for an open store and an
offset `pos`, a failing flush makes `Read` return that error and no payload;
after a successful flush, with `L` (below `2 ^ 63`) the length of the file and
`n` the big-endian value of the eight bytes at `pos`: when `pos + 8 > L`,
`Read pos` returns an error and no payload; when `pos + 8 ≤ L` the slice of
`n` bytes is allocated before anything is read into it, so `Read pos` does not
return when `make` cannot allocate `n` bytes (it panics when `n` exceeds the
limit of the runtime, and the process dies with a fatal out-of-memory error
when `n` exceeds what the machine provides); when `make` can allocate `n`
bytes, `Read pos` returns an error and no payload if `pos + 8 + n > L`, and
otherwise exactly the `n` bytes at `[pos + 8, pos + 8 + n)`, never fewer. -/
theorem read_whole_or_failure (mem : Memory) (s : store) (pos : Nat)
    (hpos : pos < 2 ^ 64) (ho : s.file.closed = false)
    (hL : (s.buf.Flush s.file).2.2.data.length < 2 ^ 63) :
    (∀ e, (s.buf.Flush s.file).1 = some e →
      (s.Read mem pos).1 = Outcome.returns ([], some e)) ∧
    ((s.buf.Flush s.file).1 = none →
      ((s.buf.Flush s.file).2.2.data.length < pos + 8 →
        ∃ e, (s.Read mem pos).1 = Outcome.returns ([], some e)) ∧
      (pos + 8 ≤ (s.buf.Flush s.file).2.2.data.length →
        mem.maxAlloc < uint64 ((s.buf.Flush s.file).2.2.data.drop pos) →
        (s.Read mem pos).1 = Outcome.panics) ∧
      (pos + 8 ≤ (s.buf.Flush s.file).2.2.data.length →
        uint64 ((s.buf.Flush s.file).2.2.data.drop pos) ≤ mem.maxAlloc →
        mem.avail < uint64 ((s.buf.Flush s.file).2.2.data.drop pos) →
        (s.Read mem pos).1 = Outcome.dies) ∧
      (pos + 8 ≤ (s.buf.Flush s.file).2.2.data.length →
        mem.Fits (uint64 ((s.buf.Flush s.file).2.2.data.drop pos)) →
        (s.buf.Flush s.file).2.2.data.length
          < pos + 8 + uint64 ((s.buf.Flush s.file).2.2.data.drop pos) →
        ∃ e, (s.Read mem pos).1 = Outcome.returns ([], some e)) ∧
      (pos + 8 + uint64 ((s.buf.Flush s.file).2.2.data.drop pos)
          ≤ (s.buf.Flush s.file).2.2.data.length →
        mem.Fits (uint64 ((s.buf.Flush s.file).2.2.data.drop pos)) →
        (s.Read mem pos).1 = Outcome.returns
          (((s.buf.Flush s.file).2.2.data.drop (pos + 8)).take
            (uint64 ((s.buf.Flush s.file).2.2.data.drop pos)), none) ∧
        (((s.buf.Flush s.file).2.2.data.drop (pos + 8)).take
            (uint64 ((s.buf.Flush s.file).2.2.data.drop pos))).length
          = uint64 ((s.buf.Flush s.file).2.2.data.drop pos))) := by
  have h8 : lenWidth = 8 := rfl
  have hc : (s.buf.Flush s.file).2.2.closed = false := by rw [Flush_closed]; exact ho
  refine ⟨fun e he => Read_flush_err mem s pos e he, fun hfl => ⟨?_, ?_, ?_, ?_, ?_⟩⟩
  · intro h
    exact Read_short mem s pos hfl hpos (by rw [h8]; exact h)
  · intro h hn
    exact Read_huge mem s pos hfl hc hL (by rw [h8]; exact h) hn
  · intro h hn hv
    exact Read_dies mem s pos hfl hc hL (by rw [h8]; exact h) hn hv
  · intro h hn hp
    exact Read_past mem s pos hfl hc hL (by rw [h8]; exact h) hn (by rw [h8]; exact hp)
  · intro hp hn
    refine ⟨?_, ?_⟩
    · have := Read_in mem s pos hfl hc (by rw [h8]; omega) hn (by rw [h8]; exact hp)
      rw [h8] at this
      exact this
    · rw [List.length_take, List.length_drop]
      omega

/-- The witness of C7 as amended: on the store holding the records of `hello`
and `world`, `Read 13` returns the five bytes of `world` and `Read 20` returns
an error; `Read 18` decodes the length 6010529016932, which the runtime accepts
and a machine with 4 GiB cannot provide, and the process dies; after `ones` is
appended `Read 34` panics. -/
theorem read_whole_or_failure_witness :
    (store2.Read linuxMem 13).1 = Outcome.returns (world, none) ∧
    (∃ e, (store2.Read linuxMem 20).1 = Outcome.returns ([], some e)) ∧
    uint64 ((store2.buf.Flush store2.file).2.2.data.drop 18) = 6010529016932 ∧
    (store2.Read linuxMem 18).1 = Outcome.dies ∧
    ((store2.Append ones).2.Read linuxMem 34).1 = Outcome.panics :=
  ⟨(((read_whole_or_failure linuxMem store2 13 (by decide) (by decide) (by decide)).2
      (by decide)).2.2.2.2 (by decide) (by decide)).1,
   ((read_whole_or_failure linuxMem store2 20 (by decide) (by decide) (by decide)).2
      (by decide)).1 (by decide),
   by decide,
   ((read_whole_or_failure linuxMem store2 18 (by decide) (by decide) (by decide)).2
      (by decide)).2.2.1 (by decide) (by decide) (by decide),
   ((read_whole_or_failure linuxMem (store2.Append ones).2 34 (by decide) (by decide)
      (by decide)).2 (by decide)).2.1 (by decide) (by decide)⟩

/-- C8, the claim as stated fails: `nested` appended to the empty store is
given the offset 0, so 8 is not the offset of a record, yet `Read 8` returns no
error: it returns the byte 65 as a payload. -/
theorem read_misaligned_returns :
    store0.appendAll [nested] = some ([0], (store0.Append nested).2) ∧ 8 ∉ [0] ∧
    ((store0.Append nested).2.Read linuxMem 8).1 = Outcome.returns ([65], none) := by
  decide

/-- C8 as amended (Read at an offset that is no record boundary): `Read` does
not check the offset. For a store whose contents `layout ps` were produced by
successful Appends to an empty file and an offset `pos` that none of them
returned, with `n` the big-endian value of the eight bytes at `pos`: `Read pos`
returns an error when fewer than 8 bytes follow `pos`; when 8 bytes follow it
does not return if `make` cannot allocate `n` bytes (it panics when `n`
exceeds the limit of the runtime, and the process dies with a fatal
out-of-memory error when `n` exceeds what the machine provides); when `make`
can allocate `n` bytes it returns an error if `pos + 8 + n` is past the end of
the contents, and otherwise it returns the `n` bytes after the eight as the
payload, with no error. -/
theorem read_misaligned (mem : Memory) (appendFlag : Bool) (s0 : store)
    (ps : List (List Byte)) (offs : List Nat) (s : store) (pos : Nat)
    (hn : newStore (openFile [] appendFlag) = Except.ok s0)
    (hb : (layout ps).length < 2 ^ 63)
    (ha : s0.appendAll ps = some (offs, s))
    (hpos : pos < 2 ^ 64) (_hmis : pos ∉ offs) :
    ((layout ps).length < pos + 8 →
      ∃ e, (s.Read mem pos).1 = Outcome.returns ([], some e)) ∧
    (pos + 8 ≤ (layout ps).length → mem.maxAlloc < uint64 ((layout ps).drop pos) →
      (s.Read mem pos).1 = Outcome.panics) ∧
    (pos + 8 ≤ (layout ps).length → uint64 ((layout ps).drop pos) ≤ mem.maxAlloc →
      mem.avail < uint64 ((layout ps).drop pos) →
      (s.Read mem pos).1 = Outcome.dies) ∧
    (pos + 8 ≤ (layout ps).length → mem.Fits (uint64 ((layout ps).drop pos)) →
      (layout ps).length < pos + 8 + uint64 ((layout ps).drop pos) →
      ∃ e, (s.Read mem pos).1 = Outcome.returns ([], some e)) ∧
    (pos + 8 + uint64 ((layout ps).drop pos) ≤ (layout ps).length →
      mem.Fits (uint64 ((layout ps).drop pos)) →
      (s.Read mem pos).1 = Outcome.returns
        (((layout ps).drop (pos + 8)).take (uint64 ((layout ps).drop pos)), none)) := by
  have h8 : lenWidth = 8 := rfl
  obtain ⟨n1, n2, n3⟩ := opened_ready appendFlag s0 hn
  have hs0 : s0.size = s0.stream.length := by rw [n3, n2]; rfl
  obtain ⟨a1, a2, _, _⟩ := appendAll_ready ps s0 offs s n1 hs0
    (by rw [n2]; simp only [List.length_nil, Nat.zero_add]; omega) ha
  rw [n2, List.nil_append] at a2
  obtain ⟨f1, _, f3, f4, _⟩ := Flush_ready s.buf s.file a1
  have hD : (s.buf.Flush s.file).2.2.data = layout ps := by rw [f3]; exact a2
  refine ⟨?_, ?_, ?_, ?_, ?_⟩
  · intro h
    exact Read_short mem s pos f1 hpos (by rw [hD, h8]; exact h)
  · intro h hn
    exact Read_huge mem s pos f1 f4.1 (by rw [hD]; exact hb) (by rw [hD, h8]; exact h)
      (by rw [hD]; exact hn)
  · intro h hn hv
    exact Read_dies mem s pos f1 f4.1 (by rw [hD]; exact hb) (by rw [hD, h8]; exact h)
      (by rw [hD]; exact hn) (by rw [hD]; exact hv)
  · intro h hn hp
    exact Read_past mem s pos f1 f4.1 (by rw [hD]; exact hb) (by rw [hD, h8]; exact h)
      (by rw [hD]; exact hn) (by rw [hD, h8]; exact hp)
  · intro hp hn
    have := Read_in mem s pos f1 f4.1 (by rw [h8]; omega) (by rw [hD]; exact hn)
      (by rw [hD, h8]; exact hp)
    rw [hD, h8] at this
    exact this

/-- The witness of C8 as amended: in the contents `hello`, `world` leave,
`Read 1` decodes the length 1384 and returns an error, `Read 20` finds fewer
than 8 bytes and returns an error, and `Read 18` decodes the length
6010529016932, which a machine with 4 GiB cannot provide: the process dies. -/
theorem read_misaligned_witness :
    uint64 ((layout [hello, world]).drop 1) = 1384 ∧
    (∃ e, (store2.Read linuxMem 1).1 = Outcome.returns ([], some e)) ∧
    (∃ e, (store2.Read linuxMem 20).1 = Outcome.returns ([], some e)) ∧
    (store2.Read linuxMem 18).1 = Outcome.dies :=
  ⟨by decide,
   (read_misaligned linuxMem false store0 [hello, world] [0, 13] store2 1
     rfl (by decide) (by decide) (by decide) (by decide)).2.2.2.1
     (by decide) (by decide) (by decide),
   (read_misaligned linuxMem false store0 [hello, world] [0, 13] store2 20
     rfl (by decide) (by decide) (by decide) (by decide)).1 (by decide),
   (read_misaligned linuxMem false store0 [hello, world] [0, 13] store2 18
     rfl (by decide) (by decide) (by decide) (by decide)).2.2.1
     (by decide) (by decide) (by decide)⟩

end Log
